import Mathlib

/-!
# WeatherSensorWH2: pulse decoder, CRC-8 and field decoding

A shallow embedding of `WeatherSensorWH2.cpp`.  Bytes and `unsigned int`
values are natural numbers, every truncation of the C++ code is an explicit
`%`.  The member arrays are small records, the function-local statics of
`accept` (`state`, `packet_no`, `bit_no`, `history`) are fields of the decoder
state, and every member function takes the decoder state and gives back the
new one together with its result.
-/

namespace WH2

/-! ## Constants (lines 12-16) -/

def MIN_LENGTH_HIGH : Nat := 13
def MAX_LENGTH_HIGH : Nat := 27
def MIN_LENGTH_LOW : Nat := 52
def MAX_LENGTH_LOW : Nat := 68

/-! ## Data model -/

/-- The widths that the sources leave to the platform or to the header:
`unsigned int` values live modulo `uintMod`, and the elements of
`mean_interval_count`, whose declaration is in `WeatherSensorWH2.h`, live
modulo `countMod`.  C guarantees at least 16 bits for the former and at least
8 bits for every integer type. -/
structure Target where
  uintMod : Nat
  countMod : Nat
  uint_ge : 65536 ≤ uintMod
  count_ge : 256 ≤ countMod

/-- The AVR boards the library was written for: 16-bit `unsigned int`, with
the counters taken as bytes. -/
def avr : Target := ⟨65536, 256, Nat.le_refl _, Nat.le_refl _⟩

/-- A two-element member array indexed by the symbol class `sample`. -/
structure Arr2 where
  a0 : Nat
  a1 : Nat
deriving DecidableEq, Repr

/-- Element `a[i]`; `i` is always the local `sample` of `accept`, 0 or 1. -/
def Arr2.get (a : Arr2) (i : Nat) : Nat := if i = 0 then a.a0 else a.a1

/-- Assignment `a[i] = v`; `i` is always the local `sample` of `accept`. -/
def Arr2.set (a : Arr2) (i v : Nat) : Arr2 :=
  if i = 0 then { a with a0 := v } else { a with a1 := v }

/-- The member `byte _packet[5]`. -/
structure Packet where
  b0 : Nat
  b1 : Nat
  b2 : Nat
  b3 : Nat
  b4 : Nat
deriving DecidableEq, Repr

/-- Read of `_packet[i]`; `none` outside the five bytes. -/
def Packet.get? (p : Packet) : Nat → Option Nat
  | 0 => some p.b0
  | 1 => some p.b1
  | 2 => some p.b2
  | 3 => some p.b3
  | 4 => some p.b4
  | _ => none

/-- Write of `_packet[i] = v`; `none` outside the five bytes. -/
def Packet.set? (p : Packet) (i v : Nat) : Option Packet :=
  match i with
  | 0 => some { p with b0 := v }
  | 1 => some { p with b1 := v }
  | 2 => some { p with b2 := v }
  | 3 => some { p with b3 := v }
  | 4 => some { p with b4 := v }
  | _ => none

/-- Every element of the buffer is a byte. -/
def Packet.isBytes (p : Packet) : Prop :=
  p.b0 < 256 ∧ p.b1 < 256 ∧ p.b2 < 256 ∧ p.b3 < 256 ∧ p.b4 < 256

instance (p : Packet) : Decidable p.isBytes := by
  unfold Packet.isBytes; infer_instance

/-- The decoder object together with the statics of `accept`. -/
structure Decoder where
  state : Nat
  packet_no : Nat
  bit_no : Nat
  history : Nat
  _packet : Packet
  _acquired : Bool
  min_interval : Arr2
  max_interval : Arr2
  mean_interval : Arr2
  mean_interval_count : Arr2
deriving DecidableEq, Repr

/-! ## `accept` (lines 34-125) -/

/-- Lines 41-49: the value given to `sample`, or `none` when the interval is
in neither range and `accept` resets and returns. -/
def classify (interval : Nat) : Option Nat :=
  if MIN_LENGTH_HIGH ≤ interval ∧ interval ≤ MAX_LENGTH_HIGH then some 1
  else if MIN_LENGTH_LOW ≤ interval ∧ interval ≤ MAX_LENGTH_LOW then some 0
  else none

/-- Lines 81-87 and 101-107: fold `interval` into the running minimum and
maximum of class `sample`. -/
def updMinMax (s : Decoder) (sample interval : Nat) : Decoder :=
  let s1 := if s.min_interval.get sample > interval
    then { s with min_interval := s.min_interval.set sample interval } else s
  if s1.max_interval.get sample < interval
    then { s1 with max_interval := s1.max_interval.set sample interval } else s1

/-- Lines 59-92, the body of `if (state == 1)`. -/
def acceptPreamble (s : Decoder) (sample interval : Nat) : Decoder :=
  let h1 := (s.history <<< 1) % 256
  let h2 := if sample = 1 then h1 ||| 0x01 else h1
  let s1 := { s with history := h2 }
  if h2 &&& 0b00000111 = 0b00000110 then
    let s2 := { s1 with
      packet_no := 0
      bit_no := 1
      _packet := ⟨0, 0, 0, 0, 0⟩
      min_interval := ⟨MAX_LENGTH_LOW + 1, MAX_LENGTH_LOW + 1⟩
      max_interval := ⟨0, 0⟩
      mean_interval := ⟨0, 0⟩
      mean_interval_count := ⟨0, 0⟩ }
    { updMinMax s2 sample interval with state := 2 }
  else s1

/-- Lines 94-124, the body of `if (state == 2)`; `none` when `packet_no` is
outside the packet buffer. -/
def acceptPacket (t : Target) (s : Decoder) (sample interval : Nat) : Option Decoder :=
  match s._packet.get? s.packet_no with
  | none => none
  | some b =>
    let b1 := (b <<< 1) % 256
    let b2 := if sample = 1 then b1 ||| 0x01 else b1
    match s._packet.set? s.packet_no b2 with
    | none => none
    | some p =>
      let s1 : Decoder := updMinMax { s with _packet := p } sample interval
      let s2 : Decoder := { s1 with
        mean_interval := s1.mean_interval.set sample
          ((s1.mean_interval.get sample + interval) % t.uintMod)
        mean_interval_count := s1.mean_interval_count.set sample
          ((s1.mean_interval_count.get sample + 1) % t.countMod) }
      let bit1 := (s2.bit_no + 1) % 256
      let s3 : Decoder := if bit1 > 7
        then { s2 with bit_no := 0, packet_no := (s2.packet_no + 1) % 256 }
        else { s2 with bit_no := bit1 }
      some (if s3.packet_no > 4 then { s3 with _acquired := true, state := 0 } else s3)

/-- Lines 52-124: what `accept` does once `sample` is set. -/
def acceptSample (t : Target) (s : Decoder) (sample interval : Nat) : Option Decoder :=
  let s1 := if s.state = 0 then { s with history := 0xFF, state := 1 } else s
  if s1.state = 1 then some (acceptPreamble s1 sample interval)
  else if s1.state = 2 then acceptPacket t s1 sample interval
  else some s1

/-- The member function `accept(byte interval)`. -/
def accept (t : Target) (s : Decoder) (interval : Nat) : Option Decoder :=
  match classify interval with
  | none => some { s with state := 0 }
  | some sample => acceptSample t s sample interval

/-- The decoder fed a sequence of intervals, one `accept` call each. -/
def run (t : Target) (s : Decoder) : List Nat → Option Decoder
  | [] => some s
  | d :: ds => (accept t s d).bind fun s1 => run t s1 ds

/-- The decoder before the first call: the statics are zero-initialised and
the constructor clears `_acquired`; the arrays are given zeros. -/
def init : Decoder :=
  { state := 0, packet_no := 0, bit_no := 0, history := 0,
    _packet := ⟨0, 0, 0, 0, 0⟩, _acquired := false,
    min_interval := ⟨0, 0⟩, max_interval := ⟨0, 0⟩,
    mean_interval := ⟨0, 0⟩, mean_interval_count := ⟨0, 0⟩ }

/-! ## Accessors (lines 127-210) -/

/-- The member function `acquired()`: the value returned and the new state. -/
def acquired (s : Decoder) : Bool × Decoder :=
  (s._acquired, { s with _acquired := false })

/-- One iteration of the inner loop of `_crc8` (lines 221-224) on the pair
`(crc, inbyte)`. -/
def crc8_bit (st : Nat × Nat) : Nat × Nat :=
  let mix := (st.1 ^^^ st.2) &&& 0x80
  let crc1 := (st.1 <<< 1) % 256
  let crc2 := if mix ≠ 0 then crc1 ^^^ 0x31 else crc1
  (crc2, (st.2 <<< 1) % 256)

/-- The body of the `while` loop of `_crc8` (lines 219-225): eight iterations
of the inner loop on one input byte. -/
def crc8_byte (crc inbyte : Nat) : Nat :=
  (crc8_bit^[8] (crc, inbyte)).1

/-- The member function `_crc8(addr, len)`; the pointer and its length are the
list of the `len` bytes read. -/
def _crc8 (addr : List Nat) : Nat :=
  addr.foldl crc8_byte 0

/-- The member function `calculate_crc()`. -/
def calculate_crc (s : Decoder) : Nat :=
  _crc8 [s._packet.b0, s._packet.b1, s._packet.b2, s._packet.b3]

/-- The member function `valid()`. -/
def valid (s : Decoder) : Bool :=
  calculate_crc s == s._packet.b4

/-- The member function `get_mean_interval()`: the array returned and the new
state, `none` when a division by zero is executed. -/
def get_mean_interval (s : Decoder) : Option (Arr2 × Decoder) :=
  if s.mean_interval_count.a0 = 0 then none
  else
    let m0 := s.mean_interval.a0 / s.mean_interval_count.a0
    if s.mean_interval_count.a1 = 0 then none
    else
      let m1 := s.mean_interval.a1 / s.mean_interval_count.a1
      some (⟨m0, m1⟩, { s with mean_interval := ⟨m0, m1⟩ })

/-- The member function `get_sensor_id()`. -/
def get_sensor_id (s : Decoder) : Int :=
  ((s._packet.b0 <<< 4) + (s._packet.b1 >>> 4) : Nat)

/-- The member function `get_humidity()`. -/
def get_humidity (s : Decoder) : Nat := s._packet.b3

/-- The member function `get_temperature()`. -/
def get_temperature (s : Decoder) : Int :=
  let temperature : Int := (((s._packet.b1 &&& 0b00000111) <<< 8) + s._packet.b2 : Nat)
  if s._packet.b1 &&& 0b00001000 ≠ 0 then -temperature else temperature

/-- The member function `get_temperature_formatted()`; `String(b, DEC)` of a
byte is its decimal numeral.  The byte called `partial` in the source is
`part` here. -/
def get_temperature_formatted (s : Decoder) : String :=
  let temperature : Nat := ((s._packet.b1 &&& 0b00000111) <<< 8) + s._packet.b2
  let whole : Nat := (temperature / 10) % 256
  let part : Nat := (temperature - whole * 10) % 256
  let s0 : String := ""
  let s1 := if s._packet.b1 &&& 0b00001000 ≠ 0 then s0 ++ "-" else s0
  s1 ++ Nat.repr whole ++ "." ++ Nat.repr part

/-! ## Definitions on the side of the specification -/

/-- The checksum procedure in the words of the specification, `n` rounds on
one byte: mix is the top bit of crc XOR byte, crc is shifted left by one
modulo 256 and XORed with 0x31 when mix is set, the byte is shifted left by
one. -/
def specCrcBits : Nat → Nat → Nat → Nat
  | 0, crc, _ => crc
  | n + 1, crc, byte =>
    let mix := (crc ^^^ byte) / 128 % 2
    let crc1 := crc * 2 % 256
    specCrcBits n (if mix = 1 then crc1 ^^^ 0x31 else crc1) (byte * 2)

/-- The checksum of the specification over a sequence of bytes, from the
running value `crc`: eight rounds for each byte. -/
def specCrcFrom : Nat → List Nat → Nat
  | crc, [] => crc
  | crc, b :: bs => specCrcFrom (specCrcBits 8 crc b) bs

/-- The checksum of the specification: the running value starts at 0. -/
def specCrc (bytes : List Nat) : Nat := specCrcFrom 0 bytes

/-- The packet with bit `j` of byte `i` flipped, for the data bytes 0..3. -/
def flipBit (p : Packet) (i j : Nat) : Packet :=
  match i with
  | 0 => { p with b0 := p.b0 ^^^ (1 <<< j) }
  | 1 => { p with b1 := p.b1 ^^^ (1 <<< j) }
  | 2 => { p with b2 := p.b2 ^^^ (1 <<< j) }
  | 3 => { p with b3 := p.b3 ^^^ (1 <<< j) }
  | _ => p

/-- What one iteration of the inner loop of `_crc8` does to `crc ^ inbyte`. -/
def crcStep (x : Nat) : Nat :=
  ((x <<< 1) % 256) ^^^ (if x &&& 0x80 ≠ 0 then 0x31 else 0)

/-- The inverse of `crcStep` on bytes. -/
def crcStepInv (y : Nat) : Nat :=
  if y % 2 = 1 then ((y ^^^ 0x31) >>> 1) ||| 0x80 else y >>> 1

/-- The byte formed MSB-first from a sequence of bits. -/
def byteOfBits (bits : List Nat) : Nat :=
  bits.foldl (fun acc b => 2 * acc + b) 0

/-- Byte `j` of a frame: the bits `8 j .. 8 j + 7` of the sequence, MSB-first. -/
def frameByte (j : Nat) (bits : List Nat) : Nat :=
  byteOfBits ((bits.drop (8 * j)).take 8)

/-- The five bytes formed MSB-first from a sequence of (up to) 40 bits. -/
def packBits (bits : List Nat) : Packet :=
  ⟨frameByte 0 bits, frameByte 1 bits, frameByte 2 bits, frameByte 3 bits, frameByte 4 bits⟩

/-- The bits that a sequence of intervals encodes. -/
def bitsOf (ds : List Nat) : List Nat :=
  ds.filterMap classify

/-- The intervals of symbol class `c` in a sequence. -/
def ofClass (c : Nat) (ds : List Nat) : List Nat :=
  ds.filter fun d => classify d == some c

/-- The least interval of class `c`, 69 when there is none. -/
def minOf (c : Nat) (ds : List Nat) : Nat :=
  (ofClass c ds).foldl min (MAX_LENGTH_LOW + 1)

/-- The greatest interval of class `c`, 0 when there is none. -/
def maxOf (c : Nat) (ds : List Nat) : Nat :=
  (ofClass c ds).foldl max 0

/-- The sum of the intervals of class `c`. -/
def sumOf (c : Nat) (ds : List Nat) : Nat :=
  (ofClass c ds).sum

/-- The number of intervals of class `c`. -/
def countOf (c : Nat) (ds : List Nat) : Nat :=
  (ofClass c ds).length

/-- The decoder state in closed form after a sync match on the pulse `d0`
and the further valid pulses `ds` (at most 39) of the frame.  The minimum and
maximum run over the sync pulse and `ds`, the sums and counts over `ds` only;
of the state before the sync pulse only the acquired flag remains. -/
def frameState (s0 : Decoder) (d0 : Nat) (ds : List Nat) : Decoder :=
  { state := if ds.length < 39 then 2 else 0
    packet_no := (ds.length + 1) / 8
    bit_no := (ds.length + 1) % 8
    history := 0xFE
    _packet := packBits (0 :: bitsOf ds)
    _acquired := s0._acquired || decide (39 ≤ ds.length)
    min_interval := ⟨minOf 0 (d0 :: ds), minOf 1 (d0 :: ds)⟩
    max_interval := ⟨maxOf 0 (d0 :: ds), maxOf 1 (d0 :: ds)⟩
    mean_interval := ⟨sumOf 0 ds, sumOf 1 ds⟩
    mean_interval_count := ⟨countOf 0 ds, countOf 1 ds⟩ }

/-- The decoder states a program can be in: the object as constructed, with
the statics of `accept` zero, `_acquired` false and whatever the member arrays
hold, and every state that calls of `accept`, `acquired()` and
`get_mean_interval()` lead to from there.  The other accessors leave the state
as it is. -/
inductive Reachable (t : Target) : Decoder → Prop
  | start (s : Decoder) (h0 : s.state = 0) (h1 : s.packet_no = 0) (h2 : s.bit_no = 0)
      (h3 : s.history = 0) (h4 : s._acquired = false) : Reachable t s
  | byAccept (s s1 : Decoder) (d : Nat) (h : Reachable t s) (e : accept t s d = some s1) :
      Reachable t s1
  | byAcquired (s : Decoder) (h : Reachable t s) : Reachable t (acquired s).2
  | byMean (s s1 : Decoder) (r : Arr2) (h : Reachable t s)
      (e : get_mean_interval s = some (r, s1)) : Reachable t s1

/-- The decoder is between frames and its history, once set, is all ones:
state 0, or state 1 with history 0xFF. -/
def Searching (s : Decoder) : Prop :=
  s.state = 0 ∨ (s.state = 1 ∧ s.history = 0xFF)

instance (s : Decoder) : Decidable (Searching s) := by
  unfold Searching; infer_instance

/-- The invariant of the state machine: between frames as in `Searching`, or
acquiring with both indices inside their ranges. -/
def Inv (s : Decoder) : Prop :=
  Searching s ∨ (s.state = 2 ∧ s.packet_no ≤ 4 ∧ s.bit_no ≤ 7)

instance (s : Decoder) : Decidable (Inv s) := by
  unfold Inv; infer_instance

/-! ## Helper lemmas on bit operations -/

/-- Adding a value below `2 ^ i` to a value shifted left by `i` is their
bitwise OR. -/
theorem shl_add_eq_or (a b i : Nat) (h : b < 2 ^ i) : (a <<< i) + b = (a <<< i) ||| b := by
  rw [Nat.shiftLeft_eq, Nat.mul_comm]
  exact Nat.mul_add_lt_is_or h a

/-- A one-digit number prints as one character. -/
theorem repr_digit (d : Nat) (h : d < 10) : (Nat.repr d).length = 1 := by
  interval_cases d <;> rfl

/-! ## Pulse classification and the accessors -/

/-- C2: an interval is a 1 bit exactly in [13,27], a 0 bit exactly in [52,68]
and invalid otherwise; on a valid interval `accept` goes on with that bit, on
an invalid one it only sets the state variable to 0, so the history and the
packet receive no bit. -/
theorem accept_classification (t : Target) (s : Decoder) (d : Nat) :
    (classify d = some 1 ↔ 13 ≤ d ∧ d ≤ 27) ∧
    (classify d = some 0 ↔ 52 ≤ d ∧ d ≤ 68) ∧
    (classify d = none ↔ ¬ (13 ≤ d ∧ d ≤ 27) ∧ ¬ (52 ≤ d ∧ d ≤ 68)) ∧
    (∀ b, classify d = some b → accept t s d = acceptSample t s b d) ∧
    (classify d = none →
      ∃ s1, accept t s d = some s1 ∧ s1.state = 0 ∧ s1.history = s.history ∧
        s1._packet = s._packet ∧ s1 = { s with state := 0 }) := by
  unfold accept classify MIN_LENGTH_HIGH MAX_LENGTH_HIGH MIN_LENGTH_LOW MAX_LENGTH_LOW
  by_cases h1 : 13 ≤ d ∧ d ≤ 27
  · have h2 : ¬ (52 ≤ d ∧ d ≤ 68) := by omega
    simp [h1, h2]
  · by_cases h2 : 52 ≤ d ∧ d ≤ 68
    · simp [h1, h2]
    · simp [h1, h2]

/-- C8: `acquired()` returns the current flag, leaves the flag false and every
other field as it was, so a second call right after returns false. -/
theorem acquired_read_and_clear (s : Decoder) :
    (acquired s).1 = s._acquired ∧
    (acquired s).2._acquired = false ∧
    (acquired s).2._packet = s._packet ∧
    (acquired s).2.state = s.state ∧
    (acquired s).2.packet_no = s.packet_no ∧
    (acquired s).2.bit_no = s.bit_no ∧
    (acquired s).2.history = s.history ∧
    (acquired s).2.min_interval = s.min_interval ∧
    (acquired s).2.max_interval = s.max_interval ∧
    (acquired s).2.mean_interval = s.mean_interval ∧
    (acquired s).2.mean_interval_count = s.mean_interval_count ∧
    (acquired (acquired s).2).1 = false := by
  simp [acquired]

/-- C9: with both counts non-zero `get_mean_interval()` returns the two
quotients sum / count, stores them in place of the sums and leaves every other
field unchanged; it divides by zero exactly when one of the counts is zero. -/
theorem get_mean_interval_spec (s : Decoder) :
    (s.mean_interval_count.a0 ≠ 0 → s.mean_interval_count.a1 ≠ 0 →
      get_mean_interval s =
        some (⟨s.mean_interval.a0 / s.mean_interval_count.a0,
               s.mean_interval.a1 / s.mean_interval_count.a1⟩,
              { s with mean_interval :=
                  ⟨s.mean_interval.a0 / s.mean_interval_count.a0,
                   s.mean_interval.a1 / s.mean_interval_count.a1⟩ })) ∧
    (get_mean_interval s = none ↔
      s.mean_interval_count.a0 = 0 ∨ s.mean_interval_count.a1 = 0) := by
  unfold get_mean_interval
  by_cases h0 : s.mean_interval_count.a0 = 0
  · simp [h0]
  · by_cases h1 : s.mean_interval_count.a1 = 0
    · simp [h0, h1]
    · simp [h0, h1]

/-- C9, a concrete state: sums 600 and 780 over counts 10 and 39. -/
theorem get_mean_interval_spec_witness :
    get_mean_interval { init with mean_interval := ⟨600, 780⟩, mean_interval_count := ⟨10, 39⟩ } =
      some (⟨60, 20⟩,
        { init with mean_interval := ⟨60, 20⟩, mean_interval_count := ⟨10, 39⟩ }) :=
  (get_mean_interval_spec
    { init with mean_interval := ⟨600, 780⟩, mean_interval_count := ⟨10, 39⟩ }).1
    (by decide) (by decide)

/-- C7: on a buffer of bytes `get_sensor_id()` is
`(packet[0] << 4) | (packet[1] >> 4)`, a value of at most 4095. -/
theorem get_sensor_id_spec (s : Decoder) (h : s._packet.isBytes) :
    get_sensor_id s = (((s._packet.b0 <<< 4) ||| (s._packet.b1 >>> 4) : Nat) : Int) ∧
    0 ≤ get_sensor_id s ∧ get_sensor_id s ≤ 4095 := by
  obtain ⟨h0, h1, -, -, -⟩ := h
  have hlt : s._packet.b1 >>> 4 < 2 ^ 4 := by
    rw [Nat.shiftRight_eq_div_pow]; omega
  have hb : s._packet.b0 <<< 4 ≤ 4080 := by
    rw [Nat.shiftLeft_eq]; omega
  unfold get_sensor_id
  refine ⟨by rw [shl_add_eq_or _ _ _ hlt], by positivity, ?_⟩
  have : (s._packet.b0 <<< 4) + (s._packet.b1 >>> 4) ≤ 4095 := by omega
  exact_mod_cast this

/-- C7 at the packet 2D 31 0A 48: the sensor id is 0x2D3. -/
theorem get_sensor_id_spec_witness :
    get_sensor_id { init with _packet := ⟨0x2D, 0x31, 0x0A, 0x48, 0⟩ } = 0x2D3 ∧
    get_sensor_id { init with _packet := ⟨0x2D, 0x31, 0x0A, 0x48, 0⟩ } ≤ 4095 :=
  ⟨by decide,
   (get_sensor_id_spec { init with _packet := ⟨0x2D, 0x31, 0x0A, 0x48, 0⟩ } (by decide)).2.2⟩

/-- C5: on a buffer of bytes `get_temperature()` is `m` when bit 3 of
`packet[1]` is clear and `-m` when it is set, with
`m = ((packet[1] & 0x07) << 8) | packet[2]`; the result is in [-2047, 2047]. -/
theorem get_temperature_spec (s : Decoder) (h : s._packet.isBytes) :
    (s._packet.b1 &&& 0x08 = 0 → get_temperature s =
      ((((s._packet.b1 &&& 0x07) <<< 8) ||| s._packet.b2 : Nat) : Int)) ∧
    (s._packet.b1 &&& 0x08 ≠ 0 → get_temperature s =
      -((((s._packet.b1 &&& 0x07) <<< 8) ||| s._packet.b2 : Nat) : Int)) ∧
    -2047 ≤ get_temperature s ∧ get_temperature s ≤ 2047 := by
  obtain ⟨-, -, h2, -, -⟩ := h
  have h2p : s._packet.b2 < 2 ^ 8 := h2
  have ha : s._packet.b1 &&& 0x07 ≤ 7 := Nat.and_le_right
  have hm : ((s._packet.b1 &&& 0x07) <<< 8) + s._packet.b2 ≤ 2047 := by
    rw [Nat.shiftLeft_eq]; omega
  unfold get_temperature
  rw [← shl_add_eq_or _ _ _ h2p]
  by_cases hs : s._packet.b1 &&& 0x08 = 0
  · simp only [hs, ne_eq, not_true_eq_false, if_false, true_implies, not_false_eq_true,
      false_implies, true_and]
    omega
  · simp only [hs, ne_eq, not_false_eq_true, if_true, true_implies, false_implies, true_and]
    omega

/-- C5 at the packets 2D 31 0A 48 and 2D 39 0A 48: 266 and -266. -/
theorem get_temperature_spec_witness :
    get_temperature { init with _packet := ⟨0x2D, 0x31, 0x0A, 0x48, 0⟩ } = 266 ∧
    get_temperature { init with _packet := ⟨0x2D, 0x39, 0x0A, 0x48, 0⟩ } = -266 ∧
    -2047 ≤ get_temperature { init with _packet := ⟨0x2D, 0x39, 0x0A, 0x48, 0⟩ } :=
  ⟨by decide, by decide,
   (get_temperature_spec { init with _packet := ⟨0x2D, 0x39, 0x0A, 0x48, 0⟩ } (by decide)).2.2.1⟩

/-- C6: on a buffer of bytes `get_temperature_formatted()` is a "-" exactly
when bit 3 of `packet[1]` is set, then the decimal numeral of `m / 10`, then
".", then the one digit `m % 10`, with
`m = ((packet[1] & 0x07) << 8) | packet[2]`; `m / 10` is at most 204, so the
byte-typed intermediates lose nothing. -/
theorem get_temperature_formatted_spec (s : Decoder) (h : s._packet.isBytes) :
    get_temperature_formatted s =
      (if s._packet.b1 &&& 0x08 ≠ 0 then "-" else "") ++
        Nat.repr ((((s._packet.b1 &&& 0x07) <<< 8) ||| s._packet.b2) / 10) ++ "." ++
        Nat.repr ((((s._packet.b1 &&& 0x07) <<< 8) ||| s._packet.b2) % 10) ∧
    (((s._packet.b1 &&& 0x07) <<< 8) ||| s._packet.b2) / 10 ≤ 204 ∧
    (Nat.repr ((((s._packet.b1 &&& 0x07) <<< 8) ||| s._packet.b2) % 10)).length = 1 := by
  obtain ⟨-, -, h2, -, -⟩ := h
  have h2p : s._packet.b2 < 2 ^ 8 := h2
  have ha : s._packet.b1 &&& 0x07 ≤ 7 := Nat.and_le_right
  have hm : ((s._packet.b1 &&& 0x07) <<< 8) + s._packet.b2 ≤ 2047 := by
    rw [Nat.shiftLeft_eq]; omega
  rw [← shl_add_eq_or _ _ _ h2p]
  generalize hmdef : ((s._packet.b1 &&& 0x07) <<< 8) + s._packet.b2 = m at hm
  have hw : (m / 10) % 256 = m / 10 := by omega
  have hp : (m - m / 10 * 10) % 256 = m % 10 := by omega
  refine ⟨?_, by omega, repr_digit _ (by omega)⟩
  unfold get_temperature_formatted
  simp only [hmdef, hw, hp]
  by_cases hs : s._packet.b1 &&& 0x08 = 0
  · simp [hs]
  · simp [hs]

/-- C6 at byte1 = 0x31 and byte1 = 0x39 with byte2 = 0x0A: "26.6" and
"-26.6". -/
theorem get_temperature_formatted_spec_witness :
    get_temperature_formatted { init with _packet := ⟨0x2D, 0x31, 0x0A, 0x48, 0⟩ } = "26.6" ∧
    get_temperature_formatted { init with _packet := ⟨0x2D, 0x39, 0x0A, 0x48, 0⟩ } = "-26.6" ∧
    (0x100 ||| 0x0A) / 10 ≤ 204 :=
  ⟨by decide, by decide,
   (get_temperature_formatted_spec
     { init with _packet := ⟨0x2D, 0x39, 0x0A, 0x48, 0⟩ } (by decide)).2.1⟩

/-! ## The checksum -/

/-- Bit 7 read with a mask. -/
theorem and_128_ne_zero_iff (x : Nat) : x &&& 0x80 ≠ 0 ↔ x.testBit 7 = true := by
  have h := Nat.and_two_pow x 7
  norm_num at h
  rw [h]
  cases x.testBit 7 <;> simp

/-- Shifting left by one modulo 256 distributes over XOR. -/
theorem shl_mod_xor (a b : Nat) :
    ((a ^^^ b) <<< 1) % 256 = ((a <<< 1) % 256) ^^^ ((b <<< 1) % 256) := by
  apply Nat.eq_of_testBit_eq
  intro i
  have e : (256 : Nat) = 2 ^ 8 := by norm_num
  simp only [e, Nat.testBit_mod_two_pow, Nat.testBit_xor, Nat.testBit_shiftLeft]
  cases decide (i < 8) <;> cases decide (i ≥ 1) <;> simp

/-- One iteration of the inner loop acts on `crc ^ inbyte` as `crcStep`. -/
theorem crc8_bit_xor (c b : Nat) :
    (crc8_bit (c, b)).1 ^^^ (crc8_bit (c, b)).2 = crcStep (c ^^^ b) ∧
    (crc8_bit (c, b)).2 = (b <<< 1) % 256 := by
  unfold crc8_bit crcStep
  refine ⟨?_, rfl⟩
  simp only [shl_mod_xor]
  by_cases h : (c ^^^ b) &&& 0x80 = 0
  · simp [h]
  · simp only [h, ne_eq, not_false_eq_true, if_true]
    rw [Nat.xor_assoc, Nat.xor_comm 0x31, ← Nat.xor_assoc]

/-- After `k` iterations the XOR of the pair is the `k`-fold `crcStep` of
the initial XOR, and the input byte has been shifted `k` times. -/
theorem crc8_bit_iterate (k c b : Nat) :
    (crc8_bit^[k] (c, b)).1 ^^^ (crc8_bit^[k] (c, b)).2 = crcStep^[k] (c ^^^ b) ∧
    (crc8_bit^[k] (c, b)).2 % 256 = (b * 2 ^ k) % 256 := by
  induction k with
  | zero => simp
  | succ k ih =>
    rw [Function.iterate_succ_apply', Function.iterate_succ_apply']
    obtain ⟨h1, h2⟩ := crc8_bit_xor (crc8_bit^[k] (c, b)).1 (crc8_bit^[k] (c, b)).2
    refine ⟨by rw [← ih.1]; exact h1, ?_⟩
    have e1 : (crc8_bit^[k] (c, b)).2 <<< 1 = (crc8_bit^[k] (c, b)).2 * 2 := by
      rw [Nat.shiftLeft_eq, pow_one]
    have e2 : b * 2 ^ (k + 1) = b * 2 ^ k * 2 := by ring
    have e3 := ih.2
    rw [h2, e1, e2]
    generalize (crc8_bit^[k] (c, b)).2 = y at e3 ⊢
    generalize b * 2 ^ k = q at e3 ⊢
    omega

/-- The loop body of `_crc8` is the eightfold `crcStep` of `crc ^ inbyte`. -/
theorem crc8_byte_eq (c b : Nat) : crc8_byte c b = crcStep^[8] (c ^^^ b) := by
  obtain ⟨h1, h2⟩ := crc8_bit_iterate 8 c b
  have h3 : (crc8_bit^[8] (c, b)).2 = 0 := by
    have h4 : (crc8_bit^[8] (c, b)).2 = ((crc8_bit^[7] (c, b)).2 <<< 1) % 256 := by
      rw [Function.iterate_succ_apply']
      exact (crc8_bit_xor _ _).2
    have h5 : (crc8_bit^[8] (c, b)).2 < 256 := by rw [h4]; exact Nat.mod_lt _ (by norm_num)
    have h6 : (b * 2 ^ 8) % 256 = 0 := by norm_num
    omega
  unfold crc8_byte
  rw [← h1, h3, Nat.xor_zero]

/-- Bit 7 depends on the value modulo 256 only. -/
theorem testBit7_mod (x y : Nat) (h : x % 256 = y % 256) : x.testBit 7 = y.testBit 7 := by
  have hx := Nat.testBit_mod_two_pow x 8 7
  have hy := Nat.testBit_mod_two_pow y 8 7
  norm_num at hx hy
  rw [← hx, ← hy, h]

/-- The inner loop of `_crc8` computes the rounds of the specification; the
specification's untruncated byte agrees with `inbyte` modulo 256. -/
theorem crc8_bit_iterate_spec (n : Nat) :
    ∀ c bs bp : Nat, bs % 256 = bp % 256 →
      (crc8_bit^[n] (c, bs)).1 = specCrcBits n c bp := by
  induction n with
  | zero => intro c bs bp _; rfl
  | succ n ih =>
    intro c bs bp h
    rw [Function.iterate_succ_apply]
    have hmix : ((c ^^^ bs) &&& 0x80 ≠ 0) ↔ ((c ^^^ bp) / 128 % 2 = 1) := by
      rw [and_128_ne_zero_iff, Nat.testBit_xor, testBit7_mod bs bp h, ← Nat.testBit_xor,
        Nat.testBit_to_div_mod]
      simp
    have hsh : (c <<< 1) % 256 = c * 2 % 256 := by rw [Nat.shiftLeft_eq, pow_one]
    have hb : ((bs <<< 1) % 256) % 256 = (bp * 2) % 256 := by
      rw [Nat.shiftLeft_eq, pow_one]; omega
    have hstep : crc8_bit (c, bs) =
        (if (c ^^^ bp) / 128 % 2 = 1 then (c * 2 % 256) ^^^ 0x31 else c * 2 % 256,
         (bs <<< 1) % 256) := by
      unfold crc8_bit
      simp only [hsh]
      by_cases hm : (c ^^^ bp) / 128 % 2 = 1
      · simp [hm, hmix.mpr hm]
      · have hm2 : ¬ ((c ^^^ bs) &&& 0x80 ≠ 0) := fun hh => hm (hmix.mp hh)
        simp [hm, hm2]
    rw [hstep]
    exact ih _ _ _ hb

/-- The checksum `_crc8` folded from any running value is the checksum of the
specification from that value. -/
theorem crc8_foldl_spec (bytes : List Nat) :
    ∀ crc : Nat, bytes.foldl crc8_byte crc = specCrcFrom crc bytes := by
  induction bytes with
  | nil => intro crc; rfl
  | cons b bs ih =>
    intro crc
    rw [List.foldl_cons, specCrcFrom, ih]
    congr 1
    exact crc8_bit_iterate_spec 8 crc b b rfl

/-- C3: `valid()` is true exactly when `packet[4]` is the checksum of the
specification over `packet[0..3]`; so a packet whose fifth byte is that
checksum is valid, whatever its first four bytes. -/
theorem valid_iff_spec_crc (s : Decoder) :
    (valid s = true ↔
      s._packet.b4 = specCrc [s._packet.b0, s._packet.b1, s._packet.b2, s._packet.b3]) ∧
    (∀ b0 b1 b2 b3 : Nat,
      valid { s with _packet := ⟨b0, b1, b2, b3, specCrc [b0, b1, b2, b3]⟩ } = true) := by
  have h : ∀ s : Decoder, valid s = true ↔
      s._packet.b4 = specCrc [s._packet.b0, s._packet.b1, s._packet.b2, s._packet.b3] := by
    intro s
    unfold valid calculate_crc _crc8 specCrc
    rw [crc8_foldl_spec, beq_iff_eq]
    exact eq_comm
  exact ⟨h s, fun b0 b1 b2 b3 => (h _).mpr rfl⟩

set_option maxRecDepth 8000 in
/-- C3 at the bytes 2D 31 0A 48: their checksum is 0x08 and the packet that
carries it is valid. -/
theorem valid_iff_spec_crc_witness :
    specCrc [0x2D, 0x31, 0x0A, 0x48] = 0x08 ∧
    valid { init with _packet := ⟨0x2D, 0x31, 0x0A, 0x48, 0x08⟩ } = true :=
  ⟨by decide, (valid_iff_spec_crc init).2 0x2D 0x31 0x0A 0x48⟩

/-- The step `crcStep` gives a byte. -/
theorem crcStep_lt (x : Nat) : crcStep x < 256 := by
  unfold crcStep
  have h1 : (x <<< 1) % 256 < 2 ^ 8 := Nat.mod_lt _ (by norm_num)
  have h2 : (if x &&& 0x80 ≠ 0 then 0x31 else 0) < 2 ^ 8 := by split <;> norm_num
  exact Nat.xor_lt_two_pow h1 h2

set_option maxRecDepth 100000 in
/-- On bytes `crcStepInv` undoes `crcStep`. -/
theorem crcStepInv_crcStep : ∀ x < 256, crcStepInv (crcStep x) = x := by
  decide

/-- The iterates of `crcStep` keep bytes bytes. -/
theorem crcStep_iterate_lt (k x : Nat) (hx : x < 256) : crcStep^[k] x < 256 := by
  cases k with
  | zero => exact hx
  | succ k => rw [Function.iterate_succ_apply']; exact crcStep_lt _

/-- The iterates of `crcStep` are injective on bytes. -/
theorem crcStep_iterate_inj (k : Nat) :
    ∀ x y : Nat, x < 256 → y < 256 → crcStep^[k] x = crcStep^[k] y → x = y := by
  induction k with
  | zero => intro x y _ _ h; exact h
  | succ k ih =>
    intro x y hx hy h
    rw [Function.iterate_succ_apply, Function.iterate_succ_apply] at h
    have h1 := ih _ _ (crcStep_lt x) (crcStep_lt y) h
    rw [← crcStepInv_crcStep x hx, ← crcStepInv_crcStep y hy, h1]

/-- The loop body of `_crc8` gives a byte. -/
theorem crc8_byte_lt (c b : Nat) : crc8_byte c b < 256 := by
  rw [crc8_byte_eq, Function.iterate_succ_apply']
  exact crcStep_lt _

/-- On bytes the loop body of `_crc8` is injective in `crc ^ inbyte`. -/
theorem crc8_byte_inj (c b c1 b1 : Nat) (hc : c < 256) (hb : b < 256) (hc1 : c1 < 256)
    (hb1 : b1 < 256) (h : crc8_byte c b = crc8_byte c1 b1) : c ^^^ b = c1 ^^^ b1 := by
  rw [crc8_byte_eq, crc8_byte_eq] at h
  exact crcStep_iterate_inj 8 _ _ (Nat.xor_lt_two_pow (n := 8) hc hb)
    (Nat.xor_lt_two_pow (n := 8) hc1 hb1) h

/-- With the same input byte, different running values stay different. -/
theorem crc8_byte_left_inj (c c1 b : Nat) (hc : c < 256) (hc1 : c1 < 256) (hb : b < 256)
    (h : crc8_byte c b = crc8_byte c1 b) : c = c1 :=
  Nat.xor_left_injective (crc8_byte_inj c b c1 b hc hb hc1 hb h)

/-- With the same running value, different input bytes give different
values. -/
theorem crc8_byte_right_inj (c b b1 : Nat) (hc : c < 256) (hb : b < 256) (hb1 : b1 < 256)
    (h : crc8_byte c b = crc8_byte c b1) : b = b1 :=
  Nat.xor_right_injective (crc8_byte_inj c b c b1 hc hb hc hb1 h)

/-- Flipping a bit changes the value. -/
theorem flip_ne (x j : Nat) : x ^^^ (1 <<< j) ≠ x := by
  intro h
  have h1 : x ^^^ (1 <<< j) = x ^^^ 0 := by rw [h, Nat.xor_zero]
  have h2 := Nat.xor_right_injective h1
  rw [Nat.one_shiftLeft] at h2
  exact absurd h2 (by positivity)

/-- Flipping one of the eight bits of a byte gives a byte. -/
theorem flip_lt (x j : Nat) (hx : x < 256) (hj : j < 8) : x ^^^ (1 <<< j) < 256 := by
  rw [Nat.one_shiftLeft]
  exact Nat.xor_lt_two_pow (n := 8) hx (Nat.pow_lt_pow_right (by norm_num) hj)

/-- Changing one of four bytes changes the checksum `_crc8`. -/
theorem crc8_four_inj (a0 a1 a2 a3 c0 c1 c2 c3 : Nat)
    (ha0 : a0 < 256) (ha1 : a1 < 256) (ha2 : a2 < 256) (ha3 : a3 < 256)
    (hc0 : c0 < 256) (hc1 : c1 < 256) (hc2 : c2 < 256) (hc3 : c3 < 256)
    (h : _crc8 [a0, a1, a2, a3] = _crc8 [c0, c1, c2, c3]) :
    (a1 = c1 → a2 = c2 → a3 = c3 → a0 = c0) ∧ (a0 = c0 → a2 = c2 → a3 = c3 → a1 = c1) ∧
    (a0 = c0 → a1 = c1 → a3 = c3 → a2 = c2) ∧ (a0 = c0 → a1 = c1 → a2 = c2 → a3 = c3) := by
  simp only [_crc8, List.foldl_cons, List.foldl_nil] at h
  refine ⟨?_, ?_, ?_, ?_⟩
  · intro e1 e2 e3
    subst e1 e2 e3
    have h3 := crc8_byte_left_inj _ _ _ (crc8_byte_lt _ _) (crc8_byte_lt _ _) ha3 h
    have h2 := crc8_byte_left_inj _ _ _ (crc8_byte_lt _ _) (crc8_byte_lt _ _) ha2 h3
    have h1 := crc8_byte_left_inj _ _ _ (crc8_byte_lt _ _) (crc8_byte_lt _ _) ha1 h2
    exact crc8_byte_right_inj 0 _ _ (by norm_num) ha0 hc0 h1
  · intro e0 e2 e3
    subst e0 e2 e3
    have h3 := crc8_byte_left_inj _ _ _ (crc8_byte_lt _ _) (crc8_byte_lt _ _) ha3 h
    have h2 := crc8_byte_left_inj _ _ _ (crc8_byte_lt _ _) (crc8_byte_lt _ _) ha2 h3
    exact crc8_byte_right_inj _ _ _ (crc8_byte_lt _ _) ha1 hc1 h2
  · intro e0 e1 e3
    subst e0 e1 e3
    have h3 := crc8_byte_left_inj _ _ _ (crc8_byte_lt _ _) (crc8_byte_lt _ _) ha3 h
    exact crc8_byte_right_inj _ _ _ (crc8_byte_lt _ _) ha2 hc2 h3
  · intro e0 e1 e2
    subst e0 e1 e2
    exact crc8_byte_right_inj _ _ _ (crc8_byte_lt _ _) ha3 hc3 h

/-- C4: when `valid()` is true on a packet of bytes, flipping any one of the
32 bits of bytes 0..3 and keeping byte 4 makes `valid()` false. -/
theorem valid_single_bit_flip (s : Decoder) (hb : s._packet.isBytes) (hv : valid s = true)
    (i j : Nat) (hi : i < 4) (hj : j < 8) :
    valid { s with _packet := flipBit s._packet i j } = false := by
  obtain ⟨h0, h1, h2, h3, -⟩ := hb
  rw [Bool.eq_false_iff]
  intro hf
  unfold valid calculate_crc at hv hf
  rw [beq_iff_eq] at hv hf
  interval_cases i
  · have h : _crc8 [s._packet.b0 ^^^ (1 <<< j), s._packet.b1, s._packet.b2, s._packet.b3] =
        _crc8 [s._packet.b0, s._packet.b1, s._packet.b2, s._packet.b3] := by
      rw [hv]; exact hf
    exact flip_ne _ _ ((crc8_four_inj _ _ _ _ _ _ _ _ (flip_lt _ _ h0 hj) h1 h2 h3 h0 h1 h2 h3
      h).1 rfl rfl rfl)
  · have h : _crc8 [s._packet.b0, s._packet.b1 ^^^ (1 <<< j), s._packet.b2, s._packet.b3] =
        _crc8 [s._packet.b0, s._packet.b1, s._packet.b2, s._packet.b3] := by
      rw [hv]; exact hf
    exact flip_ne _ _ ((crc8_four_inj _ _ _ _ _ _ _ _ h0 (flip_lt _ _ h1 hj) h2 h3 h0 h1 h2 h3
      h).2.1 rfl rfl rfl)
  · have h : _crc8 [s._packet.b0, s._packet.b1, s._packet.b2 ^^^ (1 <<< j), s._packet.b3] =
        _crc8 [s._packet.b0, s._packet.b1, s._packet.b2, s._packet.b3] := by
      rw [hv]; exact hf
    exact flip_ne _ _ ((crc8_four_inj _ _ _ _ _ _ _ _ h0 h1 (flip_lt _ _ h2 hj) h3 h0 h1 h2 h3
      h).2.2.1 rfl rfl rfl)
  · have h : _crc8 [s._packet.b0, s._packet.b1, s._packet.b2, s._packet.b3 ^^^ (1 <<< j)] =
        _crc8 [s._packet.b0, s._packet.b1, s._packet.b2, s._packet.b3] := by
      rw [hv]; exact hf
    exact flip_ne _ _ ((crc8_four_inj _ _ _ _ _ _ _ _ h0 h1 h2 (flip_lt _ _ h3 hj) h0 h1 h2 h3
      h).2.2.2 rfl rfl rfl)

set_option maxRecDepth 8000 in
/-- C4 at the valid packet 2D 31 0A 48 08: with bit 5 of byte 2 flipped the
packet is 2D 31 2A 48 08 and `valid()` is false. -/
theorem valid_single_bit_flip_witness :
    valid { init with _packet := ⟨0x2D, 0x31, 0x0A, 0x48, 0x08⟩ } = true ∧
    flipBit ⟨0x2D, 0x31, 0x0A, 0x48, 0x08⟩ 2 5 = ⟨0x2D, 0x31, 0x2A, 0x48, 0x08⟩ ∧
    valid { init with _packet := flipBit ⟨0x2D, 0x31, 0x0A, 0x48, 0x08⟩ 2 5 } = false :=
  ⟨by decide, by decide,
   valid_single_bit_flip { init with _packet := ⟨0x2D, 0x31, 0x0A, 0x48, 0x08⟩ }
     (by decide) (by decide) 2 5 (by decide) (by decide)⟩

/-! ## The packet buffer during a frame -/

/-- One more bit at the end doubles the byte and adds the bit. -/
theorem byteOfBits_append (L : List Nat) (b : Nat) :
    byteOfBits (L ++ [b]) = 2 * byteOfBits L + b := by
  simp [byteOfBits, List.foldl_append]

/-- A byte formed from `n` bits is below `2 ^ n`. -/
theorem byteOfBits_lt (L : List Nat) : (∀ x ∈ L, x ≤ 1) → byteOfBits L < 2 ^ L.length := by
  induction L using List.reverseRecOn with
  | nil => intro _; simp [byteOfBits]
  | append_singleton l a ih =>
    intro h
    have h1 := ih fun x hx => h x (List.mem_append_left _ hx)
    have h2 : a ≤ 1 := h a (by simp)
    rw [byteOfBits_append, List.length_append, List.length_singleton, pow_succ]
    omega

/-- A bit appended after byte `j` is complete leaves byte `j` as it is. -/
theorem frameByte_append_lt (j : Nat) (L : List Nat) (b : Nat) (h : 8 * j + 8 ≤ L.length) :
    frameByte j (L ++ [b]) = frameByte j L := by
  unfold frameByte
  rw [List.drop_append_of_le_length (by omega),
    List.take_append_of_le_length (by rw [List.length_drop]; omega)]

/-- A bit appended while byte `j` is being filled is shifted into byte `j`. -/
theorem frameByte_append_eq (j : Nat) (L : List Nat) (b : Nat) (h1 : 8 * j ≤ L.length)
    (h2 : L.length < 8 * j + 8) : frameByte j (L ++ [b]) = 2 * frameByte j L + b := by
  unfold frameByte
  rw [List.drop_append_of_le_length h1,
    List.take_of_length_le (by rw [List.length_append, List.length_drop]; simp; omega),
    List.take_of_length_le (by rw [List.length_drop]; omega), byteOfBits_append]

/-- A bit appended before byte `j` is reached leaves byte `j` zero. -/
theorem frameByte_append_gt (j : Nat) (L : List Nat) (b : Nat) (h : L.length < 8 * j) :
    frameByte j (L ++ [b]) = frameByte j L := by
  unfold frameByte
  rw [List.drop_eq_nil_of_le (by rw [List.length_append]; simp; omega),
    List.drop_eq_nil_of_le (by omega)]

/-- A byte that is not complete yet is below 128. -/
theorem frameByte_lt_128 (j : Nat) (L : List Nat) (hL : ∀ x ∈ L, x ≤ 1)
    (h : L.length < 8 * j + 8) : frameByte j L < 128 := by
  unfold frameByte
  have h1 : ∀ x ∈ (L.drop (8 * j)).take 8, x ≤ 1 := fun x hx =>
    hL x (List.mem_of_mem_drop (List.mem_of_mem_take hx))
  have h2 := byteOfBits_lt _ h1
  have h3 : ((L.drop (8 * j)).take 8).length ≤ 7 := by
    rw [List.length_take, List.length_drop]; omega
  calc byteOfBits ((L.drop (8 * j)).take 8) < 2 ^ ((L.drop (8 * j)).take 8).length := h2
    _ ≤ 2 ^ 7 := Nat.pow_le_pow_right (by norm_num) h3
    _ = 128 := by norm_num

/-- The shift of lines 96-99 on a byte below 128 and a bit. -/
theorem shift_in (v b : Nat) (hv : v < 128) (hb : b ≤ 1) :
    (if b = 1 then ((v <<< 1) % 256) ||| 0x01 else (v <<< 1) % 256) = 2 * v + b := by
  have e : v <<< 1 = 2 * v := by rw [Nat.shiftLeft_eq, pow_one, Nat.mul_comm]
  have hm : (v <<< 1) % 256 = v <<< 1 := Nat.mod_eq_of_lt (by omega)
  rw [hm]
  by_cases h : b = 1
  · rw [if_pos h, ← shl_add_eq_or v 1 1 (by norm_num), e, h]
  · rw [if_neg h, e]; omega

/-- Lines 96-99 on the buffer that holds the bits `L`: the byte read is
inside the buffer and the buffer written holds `L` and the new bit. -/
theorem packBits_step (L : List Nat) (b : Nat) (hL : ∀ x ∈ L, x ≤ 1) (hb : b ≤ 1)
    (hlen : L.length < 40) :
    ∃ v, (packBits L).get? (L.length / 8) = some v ∧
      (packBits L).set? (L.length / 8)
        (if b = 1 then ((v <<< 1) % 256) ||| 0x01 else (v <<< 1) % 256) =
        some (packBits (L ++ [b])) := by
  have hk : L.length / 8 < 5 := by omega
  have hk1 : 8 * (L.length / 8) ≤ L.length := by omega
  have hk2 : L.length < 8 * (L.length / 8) + 8 := by omega
  generalize L.length / 8 = k at hk hk1 hk2
  interval_cases k
  · refine ⟨frameByte 0 L, rfl, ?_⟩
    rw [shift_in _ _ (frameByte_lt_128 0 L hL (by omega)) hb]
    simp only [Packet.set?, packBits, Option.some.injEq, Packet.mk.injEq]
    exact ⟨(frameByte_append_eq 0 L b (by omega) (by omega)).symm,
      (frameByte_append_gt 1 L b (by omega)).symm, (frameByte_append_gt 2 L b (by omega)).symm,
      (frameByte_append_gt 3 L b (by omega)).symm, (frameByte_append_gt 4 L b (by omega)).symm⟩
  · refine ⟨frameByte 1 L, rfl, ?_⟩
    rw [shift_in _ _ (frameByte_lt_128 1 L hL (by omega)) hb]
    simp only [Packet.set?, packBits, Option.some.injEq, Packet.mk.injEq]
    exact ⟨(frameByte_append_lt 0 L b (by omega)).symm,
      (frameByte_append_eq 1 L b (by omega) (by omega)).symm,
      (frameByte_append_gt 2 L b (by omega)).symm,
      (frameByte_append_gt 3 L b (by omega)).symm, (frameByte_append_gt 4 L b (by omega)).symm⟩
  · refine ⟨frameByte 2 L, rfl, ?_⟩
    rw [shift_in _ _ (frameByte_lt_128 2 L hL (by omega)) hb]
    simp only [Packet.set?, packBits, Option.some.injEq, Packet.mk.injEq]
    exact ⟨(frameByte_append_lt 0 L b (by omega)).symm,
      (frameByte_append_lt 1 L b (by omega)).symm,
      (frameByte_append_eq 2 L b (by omega) (by omega)).symm,
      (frameByte_append_gt 3 L b (by omega)).symm, (frameByte_append_gt 4 L b (by omega)).symm⟩
  · refine ⟨frameByte 3 L, rfl, ?_⟩
    rw [shift_in _ _ (frameByte_lt_128 3 L hL (by omega)) hb]
    simp only [Packet.set?, packBits, Option.some.injEq, Packet.mk.injEq]
    exact ⟨(frameByte_append_lt 0 L b (by omega)).symm,
      (frameByte_append_lt 1 L b (by omega)).symm, (frameByte_append_lt 2 L b (by omega)).symm,
      (frameByte_append_eq 3 L b (by omega) (by omega)).symm,
      (frameByte_append_gt 4 L b (by omega)).symm⟩
  · refine ⟨frameByte 4 L, rfl, ?_⟩
    rw [shift_in _ _ (frameByte_lt_128 4 L hL (by omega)) hb]
    simp only [Packet.set?, packBits, Option.some.injEq, Packet.mk.injEq]
    exact ⟨(frameByte_append_lt 0 L b (by omega)).symm,
      (frameByte_append_lt 1 L b (by omega)).symm, (frameByte_append_lt 2 L b (by omega)).symm,
      (frameByte_append_lt 3 L b (by omega)).symm,
      (frameByte_append_eq 4 L b (by omega) (by omega)).symm⟩

/-! ## The timing statistics during a frame -/

/-- A classified interval is a bit, and lies in the range of its class. -/
theorem classify_some (d b : Nat) (h : classify d = some b) :
    (b = 1 ∧ 13 ≤ d ∧ d ≤ 27) ∨ (b = 0 ∧ 52 ≤ d ∧ d ≤ 68) := by
  unfold classify MIN_LENGTH_HIGH MAX_LENGTH_HIGH MIN_LENGTH_LOW MAX_LENGTH_LOW at h
  by_cases h1 : 13 ≤ d ∧ d ≤ 27
  · rw [if_pos h1] at h
    exact Or.inl ⟨(Option.some.inj h).symm, h1⟩
  · rw [if_neg h1] at h
    by_cases h2 : 52 ≤ d ∧ d ≤ 68
    · rw [if_pos h2] at h
      exact Or.inr ⟨(Option.some.inj h).symm, h2⟩
    · rw [if_neg h2] at h
      exact absurd h (by simp)

/-- The bits of a sequence with one more valid interval. -/
theorem bitsOf_append (ds : List Nat) (d b : Nat) (h : classify d = some b) :
    bitsOf (ds ++ [d]) = bitsOf ds ++ [b] := by
  simp [bitsOf, List.filterMap_append, h]

/-- Valid intervals encode one bit each, and each is 0 or 1. -/
theorem bitsOf_valid (ds : List Nat) :
    (∀ d ∈ ds, classify d ≠ none) →
      (bitsOf ds).length = ds.length ∧ ∀ x ∈ bitsOf ds, x ≤ 1 := by
  induction ds with
  | nil => intro _; simp [bitsOf]
  | cons d ds ih =>
    intro h
    obtain ⟨h1, h2⟩ := ih fun x hx => h x (List.mem_cons_of_mem _ hx)
    have hd := h d (List.mem_cons_self _ _)
    obtain ⟨b, hb⟩ := Option.ne_none_iff_exists'.mp hd
    have hb1 : b ≤ 1 := by
      rcases classify_some d b hb with h3 | h3 <;> omega
    have e : bitsOf (d :: ds) = b :: bitsOf ds := by
      simp [bitsOf, List.filterMap_cons, hb]
    rw [e]
    refine ⟨by simp [h1], ?_⟩
    intro x hx
    rcases List.mem_cons.mp hx with h3 | h3
    · rw [h3]; exact hb1
    · exact h2 x h3

/-- The intervals of class `c` with one more interval of that class. -/
theorem ofClass_append_same (c : Nat) (L : List Nat) (d : Nat) (h : classify d = some c) :
    ofClass c (L ++ [d]) = ofClass c L ++ [d] := by
  simp [ofClass, List.filter_append, h]

/-- The intervals of class `c` with one more interval of another class. -/
theorem ofClass_append_other (c : Nat) (L : List Nat) (d : Nat) (h : classify d ≠ some c) :
    ofClass c (L ++ [d]) = ofClass c L := by
  simp [ofClass, List.filter_append, h]

/-- Every interval of class 0 or 1 is at most 68. -/
theorem ofClass_le (c : Nat) (L : List Nat) : ∀ x ∈ ofClass c L, x ≤ 68 := by
  intro x hx
  have h := (List.mem_filter.mp hx).2
  rcases classify_some x c (by simpa using h) with h1 | h1 <;> omega

/-- The count of a class is at most the number of intervals. -/
theorem countOf_le (c : Nat) (L : List Nat) : countOf c L ≤ L.length :=
  List.length_filter_le _ _

/-- A sum of numbers that are at most 68. -/
theorem sum_le_68 (L : List Nat) : (∀ x ∈ L, x ≤ 68) → L.sum ≤ 68 * L.length := by
  induction L with
  | nil => intro _; simp
  | cons a l ih =>
    intro h
    have h1 := ih fun x hx => h x (List.mem_cons_of_mem _ hx)
    have h2 := h a (List.mem_cons_self _ _)
    simp only [List.sum_cons, List.length_cons]
    omega

/-- The sum of a class is at most 68 times the number of intervals. -/
theorem sumOf_le (c : Nat) (L : List Nat) : sumOf c L ≤ 68 * L.length := by
  have h1 := sum_le_68 _ (ofClass_le c L)
  have h2 := countOf_le c L
  unfold countOf at h2
  unfold sumOf
  omega

/-- Lines 101-103 on the minimum of the class of the new interval. -/
theorem minOf_append_same (c : Nat) (L : List Nat) (d : Nat) (h : classify d = some c) :
    minOf c (L ++ [d]) = if minOf c L > d then d else minOf c L := by
  unfold minOf
  rw [ofClass_append_same c L d h, List.foldl_append]
  simp only [List.foldl_cons, List.foldl_nil]
  split <;> omega

/-- Lines 105-107 on the maximum of the class of the new interval. -/
theorem maxOf_append_same (c : Nat) (L : List Nat) (d : Nat) (h : classify d = some c) :
    maxOf c (L ++ [d]) = if maxOf c L < d then d else maxOf c L := by
  unfold maxOf
  rw [ofClass_append_same c L d h, List.foldl_append]
  simp only [List.foldl_cons, List.foldl_nil]
  split <;> omega

/-- Line 109 on the sum of the class of the new interval. -/
theorem sumOf_append_same (c : Nat) (L : List Nat) (d : Nat) (h : classify d = some c) :
    sumOf c (L ++ [d]) = sumOf c L + d := by
  unfold sumOf
  rw [ofClass_append_same c L d h, List.sum_append]
  simp

/-- Line 110 on the count of the class of the new interval. -/
theorem countOf_append_same (c : Nat) (L : List Nat) (d : Nat) (h : classify d = some c) :
    countOf c (L ++ [d]) = countOf c L + 1 := by
  unfold countOf
  rw [ofClass_append_same c L d h, List.length_append]
  simp

/-- The statistics of the other class are not touched. -/
theorem stats_append_other (c : Nat) (L : List Nat) (d : Nat) (h : classify d ≠ some c) :
    minOf c (L ++ [d]) = minOf c L ∧ maxOf c (L ++ [d]) = maxOf c L ∧
    sumOf c (L ++ [d]) = sumOf c L ∧ countOf c (L ++ [d]) = countOf c L := by
  unfold minOf maxOf sumOf countOf
  rw [ofClass_append_other c L d h]
  exact ⟨rfl, rfl, rfl, rfl⟩



/-! ## One pulse of a frame -/

/-- In state 2 `accept` runs the packet branch. -/
theorem acceptSample_state2 (t : Target) (s : Decoder) (b d : Nat) (h : s.state = 2) :
    acceptSample t s b d = acceptPacket t s b d := by
  simp [acceptSample, h]

/-- The two updates of `updMinMax` as one record. -/
theorem updMinMax_eq (s : Decoder) (b d : Nat) :
    updMinMax s b d =
      { s with
        min_interval := if s.min_interval.get b > d then s.min_interval.set b d
          else s.min_interval
        max_interval := if s.max_interval.get b < d then s.max_interval.set b d
          else s.max_interval } := by
  unfold updMinMax
  by_cases h1 : s.min_interval.get b > d <;> by_cases h2 : s.max_interval.get b < d <;>
    simp [h1, h2]

/-- The packet branch with its buffer access inside the buffer, field by
field. -/
theorem acceptPacket_eq (t : Target) (s : Decoder) (b d v : Nat) (p : Packet)
    (hget : s._packet.get? s.packet_no = some v)
    (hset : s._packet.set? s.packet_no
      (if b = 1 then ((v <<< 1) % 256) ||| 0x01 else (v <<< 1) % 256) = some p) :
    acceptPacket t s b d = some
      { state :=
          if (if (s.bit_no + 1) % 256 > 7 then (s.packet_no + 1) % 256 else s.packet_no) > 4
          then 0 else s.state
        packet_no := if (s.bit_no + 1) % 256 > 7 then (s.packet_no + 1) % 256 else s.packet_no
        bit_no := if (s.bit_no + 1) % 256 > 7 then 0 else (s.bit_no + 1) % 256
        history := s.history
        _packet := p
        _acquired :=
          if (if (s.bit_no + 1) % 256 > 7 then (s.packet_no + 1) % 256 else s.packet_no) > 4
          then true else s._acquired
        min_interval := if s.min_interval.get b > d then s.min_interval.set b d
          else s.min_interval
        max_interval := if s.max_interval.get b < d then s.max_interval.set b d
          else s.max_interval
        mean_interval := s.mean_interval.set b ((s.mean_interval.get b + d) % t.uintMod)
        mean_interval_count :=
          s.mean_interval_count.set b ((s.mean_interval_count.get b + 1) % t.countMod) } := by
  unfold acceptPacket
  simp only [hget, hset, updMinMax_eq]
  split_ifs <;> rfl

/-- The minimum and maximum arrays after one more valid interval. -/
theorem minmax_step (L : List Nat) (d b : Nat) (hb : classify d = some b) :
    (if (Arr2.mk (minOf 0 L) (minOf 1 L)).get b > d
      then (Arr2.mk (minOf 0 L) (minOf 1 L)).set b d else Arr2.mk (minOf 0 L) (minOf 1 L)) =
      Arr2.mk (minOf 0 (L ++ [d])) (minOf 1 (L ++ [d])) ∧
    (if (Arr2.mk (maxOf 0 L) (maxOf 1 L)).get b < d
      then (Arr2.mk (maxOf 0 L) (maxOf 1 L)).set b d else Arr2.mk (maxOf 0 L) (maxOf 1 L)) =
      Arr2.mk (maxOf 0 (L ++ [d])) (maxOf 1 (L ++ [d])) := by
  rcases classify_some d b hb with ⟨h, -⟩ | ⟨h, -⟩
  · subst h
    have ho := stats_append_other 0 L d (by rw [hb]; simp)
    rw [minOf_append_same 1 L d hb, maxOf_append_same 1 L d hb, ho.1, ho.2.1]
    constructor <;> simp only [Arr2.get, Arr2.set] <;> split_ifs <;> simp_all
  · subst h
    have ho := stats_append_other 1 L d (by rw [hb]; simp)
    rw [minOf_append_same 0 L d hb, maxOf_append_same 0 L d hb, ho.1, ho.2.1]
    constructor <;> simp only [Arr2.get, Arr2.set] <;> split_ifs <;> simp_all

/-- The sum and count arrays after one more valid interval of a frame: no
addition wraps. -/
theorem mean_step (t : Target) (L : List Nat) (d b : Nat) (hb : classify d = some b)
    (hlen : L.length < 39) :
    (Arr2.mk (sumOf 0 L) (sumOf 1 L)).set b
        (((Arr2.mk (sumOf 0 L) (sumOf 1 L)).get b + d) % t.uintMod) =
      Arr2.mk (sumOf 0 (L ++ [d])) (sumOf 1 (L ++ [d])) ∧
    (Arr2.mk (countOf 0 L) (countOf 1 L)).set b
        (((Arr2.mk (countOf 0 L) (countOf 1 L)).get b + 1) % t.countMod) =
      Arr2.mk (countOf 0 (L ++ [d])) (countOf 1 (L ++ [d])) := by
  have hu := t.uint_ge
  have hc := t.count_ge
  have hs := sumOf_le b L
  have hn := countOf_le b L
  have hd : d ≤ 68 := by rcases classify_some d b hb with h | h <;> omega
  have e1 : (sumOf b L + d) % t.uintMod = sumOf b L + d := Nat.mod_eq_of_lt (by omega)
  have e2 : (countOf b L + 1) % t.countMod = countOf b L + 1 := Nat.mod_eq_of_lt (by omega)
  rcases classify_some d b hb with ⟨h, -⟩ | ⟨h, -⟩
  · subst h
    have ho := stats_append_other 0 L d (by rw [hb]; simp)
    rw [sumOf_append_same 1 L d hb, countOf_append_same 1 L d hb, ho.2.2.1, ho.2.2.2]
    simp [Arr2.get, Arr2.set, e1, e2]
  · subst h
    have ho := stats_append_other 1 L d (by rw [hb]; simp)
    rw [sumOf_append_same 0 L d hb, countOf_append_same 0 L d hb, ho.2.2.1, ho.2.2.2]
    simp [Arr2.get, Arr2.set, e1, e2]

/-- One valid pulse of a frame takes the closed form to the closed form with
that pulse appended. -/
theorem accept_frameState (t : Target) (s0 : Decoder) (d0 : Nat) (ds : List Nat) (d : Nat)
    (hds : ∀ x ∈ ds, classify x ≠ none) (hlen : ds.length < 39) (hd : classify d ≠ none) :
    accept t (frameState s0 d0 ds) d = some (frameState s0 d0 (ds ++ [d])) := by
  obtain ⟨b, hb⟩ := Option.ne_none_iff_exists'.mp hd
  obtain ⟨hbl, hbits⟩ := bitsOf_valid ds hds
  have hL : ∀ x ∈ 0 :: bitsOf ds, x ≤ 1 := by
    intro x hx
    rcases List.mem_cons.mp hx with h | h
    · omega
    · exact hbits x h
  have hlen8 : (0 :: bitsOf ds).length = ds.length + 1 := by simp [hbl]
  have hb1 : b ≤ 1 := by rcases classify_some d b hb with h | h <;> omega
  obtain ⟨v, hget, hset⟩ := packBits_step (0 :: bitsOf ds) b hL hb1 (by omega)
  have hcons : (0 :: bitsOf ds) ++ [b] = 0 :: bitsOf (ds ++ [d]) := by
    rw [bitsOf_append ds d b hb]; rfl
  rw [hlen8] at hget hset
  rw [hcons] at hset
  have hst : (frameState s0 d0 ds).state = 2 := by simp [frameState, hlen]
  obtain ⟨hmin, hmax⟩ := minmax_step (d0 :: ds) d b hb
  obtain ⟨hsum, hcnt⟩ := mean_step t ds d b hb hlen
  have hlen1 : (ds ++ [d]).length = ds.length + 1 := by simp
  unfold accept
  rw [hb]
  simp only []
  rw [acceptSample_state2 _ _ _ _ hst, acceptPacket_eq t _ b d v _ hget hset]
  simp only [frameState, hmin, hmax, hsum, hcnt, hlen1, List.cons_append, Option.some.injEq,
    Decoder.mk.injEq, and_true, true_and]
  refine ⟨?_, ?_, ?_, ?_⟩
  · split_ifs <;> omega
  · split_ifs <;> omega
  · split_ifs <;> omega
  · have hc : (if ((ds.length + 1) % 8 + 1) % 256 > 7 then ((ds.length + 1) / 8 + 1) % 256
        else (ds.length + 1) / 8) > 4 ↔ 39 ≤ ds.length + 1 := by
      split_ifs <;> omega
    by_cases h : 39 ≤ ds.length + 1
    · rw [if_pos (hc.mpr h)]; simp [h]
    · have h1 : ¬ 39 ≤ ds.length := by omega
      rw [if_neg (mt hc.mp h)]; simp [h, h1]

/-! ## Sequences of pulses -/

/-- The closed form depends on the state before the frame through the
acquired flag only. -/
theorem frameState_congr (s0 s1 : Decoder) (d0 : Nat) (ds : List Nat)
    (h : s1._acquired = s0._acquired) : frameState s1 d0 ds = frameState s0 d0 ds := by
  unfold frameState
  rw [h]

/-- The valid pulses of a frame, fed one by one, lead from closed form to
closed form. -/
theorem run_frameState (t : Target) (s0 : Decoder) (d0 : Nat) (ds2 : List Nat) :
    ∀ ds1 : List Nat, (∀ x ∈ ds1, classify x ≠ none) → (∀ x ∈ ds2, classify x ≠ none) →
      ds1.length + ds2.length ≤ 39 →
      run t (frameState s0 d0 ds1) ds2 = some (frameState s0 d0 (ds1 ++ ds2)) := by
  induction ds2 with
  | nil => intro ds1 _ _ _; simp [run]
  | cons d ds2 ih =>
    intro ds1 h1 h2 hlen
    have hd := h2 d (List.mem_cons_self _ _)
    have hlen2 : ds1.length < 39 := by simp only [List.length_cons] at hlen; omega
    have h1a : ∀ x ∈ ds1 ++ [d], classify x ≠ none := by
      intro x hx
      rcases List.mem_append.mp hx with h | h
      · exact h1 x h
      · rw [List.mem_singleton.mp h]; exact hd
    have e : ds1 ++ [d] ++ ds2 = ds1 ++ d :: ds2 := by simp
    rw [run, accept_frameState t s0 d0 ds1 d h1 hlen2 hd, Option.some_bind,
      ih (ds1 ++ [d]) h1a (fun x hx => h2 x (List.mem_cons_of_mem _ hx))
        (by simp only [List.length_append, List.length_cons, List.length_nil] at hlen ⊢; omega),
      e]

/-- A 1 bit shifted into the history 0xFF leaves it 0xFF: no sync match. -/
theorem acceptPreamble_high (s : Decoder) (d : Nat) (h : s.history = 0xFF) :
    acceptPreamble s 1 d = s := by
  have e1 : (0xFF <<< 1) % 256 ||| 0x01 = 0xFF := by decide
  have e2 : ¬ (0xFF &&& 0b00000111 = 0b00000110) := by decide
  unfold acceptPreamble
  simp only [h, e1, if_true, if_neg e2]
  rw [← h]

/-- A HIGH pulse between frames leaves the decoder searching with history 0xFF
and changes nothing else. -/
theorem accept_high (t : Target) (s : Decoder) (d : Nat) (hs : Searching s)
    (hd : classify d = some 1) :
    accept t s d = some { s with state := 1, history := 0xFF } := by
  unfold accept
  rw [hd]
  show acceptSample t s 1 d = _
  unfold acceptSample
  rcases hs with h | ⟨h1, h2⟩
  · simp only [h, if_true]
    rw [acceptPreamble_high _ d rfl]
  · have h10 : ¬ (1 = 0) := by decide
    simp only [h1, h10, if_false, if_true]
    rw [acceptPreamble_high s d h2]
    congr 1
    cases s
    simp_all

/-- A 0 bit shifted into the history 0xFF is a sync match: lines 69-89. -/
theorem acceptPreamble_low (s : Decoder) (d : Nat) (h : s.history = 0xFF)
    (hr : 52 ≤ d ∧ d ≤ 68) :
    acceptPreamble s 0 d =
      { state := 2, packet_no := 0, bit_no := 1, history := 0xFE, _packet := ⟨0, 0, 0, 0, 0⟩,
        _acquired := s._acquired, min_interval := ⟨d, 69⟩, max_interval := ⟨d, 0⟩,
        mean_interval := ⟨0, 0⟩, mean_interval_count := ⟨0, 0⟩ } := by
  have e1 : (0xFF <<< 1) % 256 = 0xFE := by decide
  have e0 : ¬ (0 = 1) := by decide
  have e2 : 0xFE &&& 0b00000111 = 0b00000110 := by decide
  have h69 : MAX_LENGTH_LOW + 1 > d := by unfold MAX_LENGTH_LOW; omega
  have h0 : 0 < d := by omega
  have e3 : MAX_LENGTH_LOW + 1 = 69 := rfl
  rw [e3] at h69
  unfold acceptPreamble
  simp only [h, e1, e0, if_false, e2, if_true, updMinMax_eq, Arr2.get, Arr2.set, h69, h0, e3]

/-- A LOW pulse between frames is a sync match: the decoder is in the closed
form of a frame that has its sync pulse only. -/
theorem accept_low (t : Target) (s : Decoder) (d : Nat) (hs : Searching s)
    (hd : classify d = some 0) : accept t s d = some (frameState s d []) := by
  have hr : 52 ≤ d ∧ d ≤ 68 := by rcases classify_some d 0 hd with h | h <;> omega
  have hmin0 : minOf 0 [d] = d := by
    simp [minOf, ofClass, hd, MAX_LENGTH_LOW]; omega
  have hmax0 : maxOf 0 [d] = d := by
    simp [maxOf, ofClass, hd]
  have hmin1 : minOf 1 [d] = 69 := by
    simp [minOf, ofClass, hd, MAX_LENGTH_LOW]
  have hmax1 : maxOf 1 [d] = 0 := by
    simp [maxOf, ofClass, hd]
  have hp : packBits (0 :: bitsOf []) = ⟨0, 0, 0, 0, 0⟩ := by decide
  have hf : frameState s d [] =
      { state := 2, packet_no := 0, bit_no := 1, history := 0xFE, _packet := ⟨0, 0, 0, 0, 0⟩,
        _acquired := s._acquired, min_interval := ⟨d, 69⟩, max_interval := ⟨d, 0⟩,
        mean_interval := ⟨0, 0⟩, mean_interval_count := ⟨0, 0⟩ } := by
    simp [frameState, hmin0, hmax0, hmin1, hmax1, hp, sumOf, countOf, ofClass]
  rw [hf]
  unfold accept
  rw [hd]
  show acceptSample t s 0 d = _
  unfold acceptSample
  rcases hs with h | ⟨h1, h2⟩
  · simp only [h, if_true]
    rw [acceptPreamble_low _ d rfl hr]
  · have h10 : ¬ (1 = 0) := by decide
    simp only [h1, h10, if_false, if_true]
    rw [acceptPreamble_low s d h2 hr]

/-- Feeding two sequences one after the other. -/
theorem run_append (t : Target) (xs ys : List Nat) :
    ∀ s : Decoder, run t s (xs ++ ys) = (run t s xs).bind fun s1 => run t s1 ys := by
  induction xs with
  | nil => intro s; rfl
  | cons x xs ih =>
    intro s
    simp only [List.cons_append, run]
    cases accept t s x with
    | none => rfl
    | some s1 => simp only [Option.some_bind]; exact ih s1

/-- HIGH pulses between frames keep the decoder between frames and leave the
acquired flag and the packet buffer as they are. -/
theorem run_high (t : Target) (pre : List Nat) :
    ∀ s : Decoder, Searching s → (∀ d ∈ pre, classify d = some 1) →
      ∃ s1, run t s pre = some s1 ∧ Searching s1 ∧ s1._acquired = s._acquired ∧
        s1._packet = s._packet := by
  induction pre with
  | nil => intro s hs _; exact ⟨s, rfl, hs, rfl, rfl⟩
  | cons d pre ih =>
    intro s hs h
    have hd := h d (List.mem_cons_self _ _)
    obtain ⟨s1, h1, h2, h3, h4⟩ := ih { s with state := 1, history := 0xFF }
      (Or.inr ⟨rfl, rfl⟩) fun x hx => h x (List.mem_cons_of_mem _ hx)
    exact ⟨s1, by rw [run, accept_high t s d hs hd, Option.some_bind]; exact h1, h2, h3, h4⟩

/-- A whole frame and every beginning of one: HIGH pulses, the LOW sync pulse
and up to 39 valid pulses lead from between frames to the closed form. -/
theorem run_frame (t : Target) (s : Decoder) (pre : List Nat) (d0 : Nat) (ds : List Nat)
    (hs : Searching s) (hpre : ∀ d ∈ pre, classify d = some 1) (hd0 : classify d0 = some 0)
    (hds : ∀ d ∈ ds, classify d ≠ none) (hlen : ds.length ≤ 39) :
    run t s (pre ++ d0 :: ds) = some (frameState s d0 ds) := by
  obtain ⟨s1, h1, h2, h3, -⟩ := run_high t pre s hs hpre
  have h4 := run_frameState t s1 d0 ds [] (by simp) hds (by simpa using hlen)
  rw [run_append, h1, Option.some_bind, run, accept_low t s1 d0 h2 hd0, Option.some_bind, h4,
    List.nil_append, frameState_congr s s1 d0 ds h3]

/-! ## The invariant of the state machine -/

/-- An index of at most 4 is inside the packet buffer. -/
theorem packet_get_set (p : Packet) (k : Nat) (hk : k ≤ 4) :
    ∃ v, p.get? k = some v ∧ ∀ x, ∃ q, p.set? k x = some q := by
  interval_cases k
  · exact ⟨p.b0, rfl, fun x => ⟨_, rfl⟩⟩
  · exact ⟨p.b1, rfl, fun x => ⟨_, rfl⟩⟩
  · exact ⟨p.b2, rfl, fun x => ⟨_, rfl⟩⟩
  · exact ⟨p.b3, rfl, fun x => ⟨_, rfl⟩⟩
  · exact ⟨p.b4, rfl, fun x => ⟨_, rfl⟩⟩

/-- Under the invariant `accept` stays inside the packet buffer, and the
invariant holds again afterwards. -/
theorem accept_inv (t : Target) (s : Decoder) (d : Nat) (h : Inv s) :
    ∃ s1, accept t s d = some s1 ∧ Inv s1 := by
  cases hc : classify d with
  | none =>
    refine ⟨{ s with state := 0 }, ?_, Or.inl (Or.inl rfl)⟩
    unfold accept
    rw [hc]
  | some b =>
    rcases h with hs | ⟨h2, hp, hb⟩
    · rcases classify_some d b hc with ⟨hb1, -⟩ | ⟨hb0, -⟩
      · subst hb1
        exact ⟨_, accept_high t s d hs hc, Or.inl (Or.inr ⟨rfl, rfl⟩)⟩
      · subst hb0
        refine ⟨_, accept_low t s d hs hc, Or.inr ?_⟩
        simp [frameState]
    · obtain ⟨v, hget, hset⟩ := packet_get_set s._packet s.packet_no hp
      obtain ⟨q, hq⟩ := hset (if b = 1 then ((v <<< 1) % 256) ||| 0x01 else (v <<< 1) % 256)
      have he : accept t s d = acceptPacket t s b d := by
        unfold accept
        rw [hc]
        exact acceptSample_state2 t s b d h2
      rw [he, acceptPacket_eq t s b d v q hget hq]
      refine ⟨_, rfl, ?_⟩
      unfold Inv Searching
      simp only [h2]
      split_ifs <;> simp <;> omega

/-- Every state the program can be in satisfies the invariant. -/
theorem reachable_inv (t : Target) (s : Decoder) (h : Reachable t s) : Inv s := by
  induction h with
  | start s h0 _ _ _ _ => exact Or.inl (Or.inl h0)
  | byAccept s s1 d _ e ih =>
    obtain ⟨s2, h1, h2⟩ := accept_inv t s d ih
    rw [h1] at e
    rw [← Option.some.inj e]
    exact h2
  | byAcquired s _ ih => exact ih
  | byMean s s1 r _ e ih =>
    unfold get_mean_interval at e
    split_ifs at e
    rw [← (Prod.mk.inj (Option.some.inj e)).2]
    exact ih

/-- A reachable state in state 0 or 1 is between frames with its history, once
set, all ones. -/
theorem reachable_searching (t : Target) (s : Decoder) (h : Reachable t s)
    (hs : s.state = 0 ∨ s.state = 1) : Searching s := by
  rcases reachable_inv t s h with h1 | ⟨h2, -, -⟩
  · exact h1
  · omega

/-! ## Frames -/

/-- C1: from every reachable decoder state in state 0 or 1 with the acquired
flag clear, HIGH pulses (none or more), a LOW pulse and 39 further valid pulses,
fed to `accept` one by one, leave the flag false after every pulse but the last
and true after the last; the buffer then holds the five bytes formed MSB-first
from the 40 bits 0, b1, ..., b39, and `acquired()` returns true once and false
on the next call. -/
theorem frame_acquisition (t : Target) (s0 : Decoder) (pre : List Nat) (d0 : Nat)
    (rest : List Nat) (hr : Reachable t s0) (hs : s0.state = 0 ∨ s0.state = 1)
    (ha : s0._acquired = false) (hpre : ∀ d ∈ pre, classify d = some 1)
    (hd0 : classify d0 = some 0) (hrest : ∀ d ∈ rest, classify d ≠ none)
    (hlen : rest.length = 39) :
    (∀ k, k < (pre ++ d0 :: rest).length →
      ∃ s, run t s0 ((pre ++ d0 :: rest).take k) = some s ∧ s._acquired = false) ∧
    ∃ s, run t s0 (pre ++ d0 :: rest) = some s ∧ s._acquired = true ∧
      s._packet = packBits (0 :: bitsOf rest) ∧
      (acquired s).1 = true ∧ (acquired (acquired s).2).1 = false := by
  have hsr := reachable_searching t s0 hr hs
  constructor
  · intro k hk
    by_cases hkp : k ≤ pre.length
    · rw [List.take_append_of_le_length hkp]
      obtain ⟨s1, h1, -, h3, -⟩ := run_high t (pre.take k) s0 hsr
        fun d hd => hpre d (List.mem_of_mem_take hd)
      exact ⟨s1, h1, by rw [h3, ha]⟩
    · obtain ⟨j, hj⟩ : ∃ j, k = pre.length + (j + 1) := ⟨k - pre.length - 1, by omega⟩
      have hj39 : j < 39 := by
        simp only [List.length_append, List.length_cons] at hk
        omega
      have hjl : (rest.take j).length = j := by
        rw [List.length_take]; omega
      rw [hj, List.take_append, List.take_succ_cons]
      refine ⟨_, run_frame t s0 pre d0 (rest.take j) hsr hpre hd0
        (fun d hd => hrest d (List.mem_of_mem_take hd)) (by omega), ?_⟩
      simp only [frameState, ha, hjl, Bool.false_or, decide_eq_false_iff_not]
      omega
  · refine ⟨_, run_frame t s0 pre d0 rest hsr hpre hd0 hrest (by omega), ?_, rfl, ?_, rfl⟩
    · simp [frameState, hlen]
    · simp [frameState, hlen, acquired]

/-- C1 from the initial state, with two HIGH pulses, the LOW pulse 60 and 39
pulses that alternate 20 and 60. -/
theorem frame_acquisition_witness :
    ∃ s, run avr init ([20, 20] ++ 60 :: (List.range 39).map fun i => if i % 2 = 0 then 20 else 60)
        = some s ∧ s._acquired = true ∧
      s._packet = packBits
        (0 :: bitsOf ((List.range 39).map fun i => if i % 2 = 0 then 20 else 60)) ∧
      (acquired s).1 = true ∧ (acquired (acquired s).2).1 = false :=
  (frame_acquisition avr init [20, 20] 60
    ((List.range 39).map fun i => if i % 2 = 0 then 20 else 60)
    (Reachable.start init rfl rfl rfl rfl rfl) (Or.inl rfl) rfl (by decide) (by decide)
    (by decide) (by decide)).2

/-- C10 at the frame made of the LOW pulse 60 and 39 HIGH pulses 20, fed from
the initial state: the frame is acquired, its 40 bits 0111...1 hold a 0 and
1s, and the count of class 0 is zero, so `get_mean_interval()` divides by
zero.  The sync pulse, the only LOW one, went into the minimum and maximum but
not into the sum and the count. -/
theorem mean_after_mixed_frame (t : Target) :
    ∃ s, run t init (60 :: List.replicate 39 20) = some s ∧ s._acquired = true ∧
      s._packet = ⟨0x7F, 0xFF, 0xFF, 0xFF, 0xFF⟩ ∧
      s.min_interval = ⟨60, 20⟩ ∧ s.max_interval = ⟨60, 20⟩ ∧
      s.mean_interval_count = ⟨0, 39⟩ ∧ get_mean_interval s = none :=
  ⟨frameState init 60 (List.replicate 39 20),
    run_frame t init [] 60 (List.replicate 39 20) (Or.inl rfl) (by simp) (by decide)
      (by decide) (by decide),
    by decide, by decide, by decide, by decide, by decide, by decide⟩

/-- C14 at the LOW pulse 60 fed in the initial state: the sync match clears
the buffer, sets the indices 0 and 1 and state 2, and folds the pulse into the
minimum and maximum of class 0, but the sum and the count of class 0 stay 0. -/
theorem sync_match_statistics (t : Target) :
    accept t init 60 = some
      { state := 2, packet_no := 0, bit_no := 1, history := 0xFE,
        _packet := ⟨0, 0, 0, 0, 0⟩, _acquired := false,
        min_interval := ⟨60, 69⟩, max_interval := ⟨60, 0⟩,
        mean_interval := ⟨0, 0⟩, mean_interval_count := ⟨0, 0⟩ } := by
  rw [accept_low t init 60 (Or.inl rfl) (by decide)]
  decide

/-- C15: an interval outside [13,27] and [52,68] sets the state variable to 0
and leaves every other field as it was; the next valid pulse then sets the
history to 0xFF before its bit is shifted in, so that the history after it is
0xFE plus the bit, whatever the history was. -/
theorem invalid_pulse_resets_state (t : Target) (s : Decoder) (d : Nat)
    (h1 : ¬ (13 ≤ d ∧ d ≤ 27)) (h2 : ¬ (52 ≤ d ∧ d ≤ 68)) :
    accept t s d = some { s with state := 0 } ∧
    (∀ s1, accept t s d = some s1 →
      s1.state = 0 ∧ s1._packet = s._packet ∧ s1.packet_no = s.packet_no ∧
      s1.bit_no = s.bit_no ∧ s1._acquired = s._acquired ∧
      s1.min_interval = s.min_interval ∧ s1.max_interval = s.max_interval ∧
      s1.mean_interval = s.mean_interval ∧
      s1.mean_interval_count = s.mean_interval_count ∧ s1.history = s.history) ∧
    (∀ d1 b, classify d1 = some b →
      accept t { s with state := 0 } d1 =
        some (acceptPreamble { s with state := 1, history := 0xFF } b d1) ∧
      (acceptPreamble { s with state := 1, history := 0xFF } b d1).history = 0xFE + b) := by
  have hc : classify d = none := by
    unfold classify MIN_LENGTH_HIGH MAX_LENGTH_HIGH MIN_LENGTH_LOW MAX_LENGTH_LOW
    rw [if_neg h1, if_neg h2]
  have ha : accept t s d = some { s with state := 0 } := by
    unfold accept
    rw [hc]
  refine ⟨ha, ?_, ?_⟩
  · intro s1 h
    rw [ha] at h
    rw [← Option.some.inj h]
    exact ⟨rfl, rfl, rfl, rfl, rfl, rfl, rfl, rfl, rfl, rfl⟩
  · intro d1 b hb
    constructor
    · unfold accept
      rw [hb]
      simp [acceptSample]
    · rcases classify_some d1 b hb with ⟨hb1, -⟩ | ⟨hb0, hr⟩
      · subst hb1
        rw [acceptPreamble_high _ d1 rfl]
      · subst hb0
        rw [acceptPreamble_low _ d1 rfl hr]

/-- C15 at the interval 40 fed in the middle of a frame. -/
theorem invalid_pulse_resets_state_witness :
    accept avr (frameState init 60 [20, 60]) 40 =
      some { frameState init 60 [20, 60] with state := 0 } :=
  (invalid_pulse_resets_state avr (frameState init 60 [20, 60]) 40 (by decide) (by decide)).1

/-- The preamble branch either matches the sync pattern, clears the buffer
and goes to state 2, or touches neither the buffer nor the state. -/
theorem acceptPreamble_cases (s : Decoder) (b d : Nat) :
    ((acceptPreamble s b d).state = 2 ∧ (acceptPreamble s b d)._packet = ⟨0, 0, 0, 0, 0⟩) ∨
    ((acceptPreamble s b d).state = s.state ∧ (acceptPreamble s b d)._packet = s._packet) := by
  unfold acceptPreamble
  simp only [updMinMax_eq]
  split_ifs <;> first | exact Or.inl ⟨rfl, rfl⟩ | exact Or.inr ⟨rfl, rfl⟩

/-- Between frames one call of `accept` either keeps the buffer and stays
between frames, or matches the sync pattern and clears the buffer. -/
theorem accept_between_frames (t : Target) (s : Decoder) (d : Nat)
    (hs : s.state = 0 ∨ s.state = 1) :
    ∃ s1, accept t s d = some s1 ∧
      (((s1.state = 0 ∨ s1.state = 1) ∧ s1._packet = s._packet) ∨
        (s1.state = 2 ∧ s1._packet = ⟨0, 0, 0, 0, 0⟩)) := by
  cases hc : classify d with
  | none =>
    refine ⟨{ s with state := 0 }, ?_, Or.inl ⟨Or.inl rfl, rfl⟩⟩
    unfold accept
    rw [hc]
  | some b =>
    have he : accept t s d = some (acceptPreamble
        (if s.state = 0 then { s with history := 0xFF, state := 1 } else s) b d) := by
      unfold accept
      rw [hc]
      rcases hs with h | h <;> simp [acceptSample, h]
    refine ⟨_, he, ?_⟩
    rcases acceptPreamble_cases
      (if s.state = 0 then { s with history := 0xFF, state := 1 } else s) b d with h | h
    · exact Or.inr h
    · refine Or.inl ⟨Or.inr ?_, ?_⟩
      · rw [h.1]; rcases hs with h0 | h0 <;> simp [h0]
      · rw [h.2]; rcases hs with h0 | h0 <;> simp [h0]

/-- C16: in state 0 or 1 a call of `accept` leaves the five packet bytes as
they are unless it detects the sync pattern (and goes to state 2), in which
case it sets them to zero; so the buffer is kept across every sequence of
pulses during which the decoder never enters state 2. -/
theorem packet_frozen_between_frames (t : Target) (s : Decoder)
    (hs : s.state = 0 ∨ s.state = 1) :
    (∀ d, ∃ s1, accept t s d = some s1 ∧ (s1.state ≠ 2 → s1._packet = s._packet) ∧
      (s1.state = 2 → s1._packet = ⟨0, 0, 0, 0, 0⟩)) ∧
    (∀ ds : List Nat,
      (∀ k s2, k ≤ ds.length → run t s (ds.take k) = some s2 → s2.state ≠ 2) →
      ∃ s1, run t s ds = some s1 ∧ s1._packet = s._packet) := by
  constructor
  · intro d
    obtain ⟨s1, h1, h2⟩ := accept_between_frames t s d hs
    refine ⟨s1, h1, ?_, ?_⟩
    · intro hn
      rcases h2 with h | h
      · exact h.2
      · exact absurd h.1 hn
    · intro h2s
      rcases h2 with h | h
      · omega
      · exact h.2
  · intro ds
    induction ds generalizing s with
    | nil => intro _; exact ⟨s, rfl, rfl⟩
    | cons d ds ih =>
      intro hno
      obtain ⟨s1, h1, h2⟩ := accept_between_frames t s d hs
      have hs1 : s1.state ≠ 2 := hno 1 s1 (by simp) (by simp [run, h1])
      rcases h2 with ⟨h3, h4⟩ | h3
      · obtain ⟨s3, h5, h6⟩ := ih s1 h3 (by
          intro k s2 hk hrun
          exact hno (k + 1) s2 (by simpa using hk) (by simp [run, h1, hrun]))
        exact ⟨s3, by simp [run, h1, h5], by rw [h6, h4]⟩
      · exact absurd h3.1 hs1

/-- C16 after the frame 60, 20 x 39: the HIGH pulse 20 leaves the acquired
bytes 7F FF FF FF FF in the buffer. -/
theorem packet_frozen_between_frames_witness :
    ∃ s1, accept avr (frameState init 60 (List.replicate 39 20)) 20 = some s1 ∧
      (s1.state ≠ 2 → s1._packet = (frameState init 60 (List.replicate 39 20))._packet) ∧
      (s1.state = 2 → s1._packet = ⟨0, 0, 0, 0, 0⟩) :=
  (packet_frozen_between_frames avr (frameState init 60 (List.replicate 39 20))
    (Or.inl (by decide))).1 20

/-! ## Invariants over the reachable states -/

/-- Every state that a sequence of pulses leads to from a reachable state is
reachable. -/
theorem reachable_run (t : Target) (ds : List Nat) :
    ∀ s s1 : Decoder, Reachable t s → run t s ds = some s1 → Reachable t s1 := by
  induction ds with
  | nil =>
    intro s s1 h e
    rw [← Option.some.inj e]
    exact h
  | cons d ds ih =>
    intro s s1 h e
    rw [run] at e
    cases ha : accept t s d with
    | none => rw [ha] at e; exact absurd e (by simp)
    | some s2 =>
      rw [ha, Option.some_bind] at e
      exact ih s2 s1 (Reachable.byAccept s s2 d h ha) e

/-- The initial state is reachable. -/
theorem reachable_init (t : Target) : Reachable t init :=
  Reachable.start init rfl rfl rfl rfl rfl

/-- C17: in every reachable state in state 2 the byte index is at most 4 and
the bit index at most 7; hence in every reachable state `accept` returns with
its write to `_packet[packet_no]` inside the buffer, for every interval, and
the index `sample` of the statistics arrays is 0 or 1. -/
theorem index_safety (t : Target) (s : Decoder) (hr : Reachable t s) :
    (s.state = 2 → s.packet_no ≤ 4 ∧ s.bit_no ≤ 7) ∧
    (∀ d, ∃ s1, accept t s d = some s1) ∧
    (s.state = 2 → ∃ v, s._packet.get? s.packet_no = some v ∧
      ∀ x, ∃ q, s._packet.set? s.packet_no x = some q) ∧
    (∀ d b, classify d = some b → b = 0 ∨ b = 1) := by
  have hi := reachable_inv t s hr
  have h2 : s.state = 2 → s.packet_no ≤ 4 ∧ s.bit_no ≤ 7 := by
    intro h
    rcases hi with (h0 | ⟨h1, -⟩) | ⟨-, hp, hb⟩
    · omega
    · omega
    · exact ⟨hp, hb⟩
  refine ⟨h2, ?_, ?_, ?_⟩
  · intro d
    obtain ⟨s1, h1, -⟩ := accept_inv t s d hi
    exact ⟨s1, h1⟩
  · intro h
    exact packet_get_set s._packet s.packet_no (h2 h).1
  · intro d b hb
    rcases classify_some d b hb with h | h
    · exact Or.inr h.1
    · exact Or.inl h.1

/-- C17 in the state after the sync pulse 60 and the pulses 20, 60, 20, 20, 20,
20, 20: byte 0 is complete, the indices are 1 and 0. -/
theorem index_safety_witness :
    (frameState init 60 [20, 60, 20, 20, 20, 20, 20]).state = 2 ∧
    (frameState init 60 [20, 60, 20, 20, 20, 20, 20]).packet_no = 1 ∧
    (frameState init 60 [20, 60, 20, 20, 20, 20, 20]).packet_no ≤ 4 ∧
    (frameState init 60 [20, 60, 20, 20, 20, 20, 20]).bit_no ≤ 7 :=
  ⟨by decide, by decide,
   (index_safety avr (frameState init 60 [20, 60, 20, 20, 20, 20, 20])
     (reachable_run avr _ init _ (reachable_init avr)
       (run_frame avr init [] 60 [20, 60, 20, 20, 20, 20, 20] (Or.inl rfl) (by simp)
         (by decide) (by decide) (by decide)))).1 (by decide)⟩

/-- C18: in every reachable state in state 1 the history is 0xFF; so from a
reachable state in state 0 or 1 a HIGH pulse never gives a sync match (the
decoder is in state 1 with history 0xFF again) and a LOW pulse always does
(the decoder is in state 2). -/
theorem searching_history (t : Target) (s : Decoder) (hr : Reachable t s) :
    (s.state = 1 → s.history = 0xFF) ∧
    (s.state = 0 ∨ s.state = 1 → ∀ d,
      (classify d = some 1 →
        ∃ s1, accept t s d = some s1 ∧ s1.state = 1 ∧ s1.history = 0xFF) ∧
      (classify d = some 0 → ∃ s1, accept t s d = some s1 ∧ s1.state = 2)) := by
  constructor
  · intro h1
    rcases reachable_inv t s hr with (h0 | ⟨-, hh⟩) | ⟨h2, -, -⟩
    · omega
    · exact hh
    · omega
  · intro hs d
    have hsr := reachable_searching t s hr hs
    constructor
    · intro hd
      exact ⟨_, accept_high t s d hsr hd, rfl, rfl⟩
    · intro hd
      exact ⟨_, accept_low t s d hsr hd, by simp [frameState]⟩

/-- C18 in the state after three HIGH pulses from the initial state. -/
theorem searching_history_witness :
    run avr init [20, 21, 22] = some { init with state := 1, history := 0xFF } ∧
    ({ init with state := 1, history := 0xFF } : Decoder).history = 0xFF :=
  ⟨by decide,
   (searching_history avr { init with state := 1, history := 0xFF }
     (reachable_run avr [20, 21, 22] init _ (reachable_init avr) (by decide))).1 rfl⟩

/-- C19: `accept` never clears the acquired flag: in every state with the
flag true and the byte index inside the buffer while acquiring (every reachable
state is such), the flag is true after `accept`, for every interval; so when
the decoder is between frames with the flag still true, a LOW pulse, which is a
sync match, zeroes the buffer while `acquired()` still returns true. -/
theorem accept_keeps_acquired (t : Target) (s : Decoder) (d : Nat)
    (ha : s._acquired = true) (hidx : s.state = 2 → s.packet_no ≤ 4) :
    (∃ s1, accept t s d = some s1 ∧ s1._acquired = true) ∧
    (Searching s → classify d = some 0 →
      ∃ s1, accept t s d = some s1 ∧ s1._packet = ⟨0, 0, 0, 0, 0⟩ ∧
        (acquired s1).1 = true) := by
  constructor
  · cases hc : classify d with
    | none =>
      refine ⟨{ s with state := 0 }, ?_, ha⟩
      unfold accept
      rw [hc]
    | some b =>
      have hacc : accept t s d = acceptSample t s b d := by
        unfold accept
        rw [hc]
      by_cases h2 : s.state = 2
      · obtain ⟨v, hget, hset⟩ := packet_get_set s._packet s.packet_no (hidx h2)
        obtain ⟨q, hq⟩ := hset (if b = 1 then ((v <<< 1) % 256) ||| 0x01 else (v <<< 1) % 256)
        rw [hacc, acceptSample_state2 t s b d h2, acceptPacket_eq t s b d v q hget hq]
        refine ⟨_, rfl, ?_⟩
        simp only [ha]
        split_ifs <;> rfl
      · rw [hacc]
        unfold acceptSample acceptPreamble
        simp only [updMinMax_eq]
        by_cases h0 : s.state = 0
        · simp only [h0, if_true]
          split_ifs <;> exact ⟨_, rfl, ha⟩
        · simp only [h0, h2, if_false]
          split_ifs <;> exact ⟨_, rfl, ha⟩
  · intro hs hd
    have hp : packBits (0 :: bitsOf []) = ⟨0, 0, 0, 0, 0⟩ := by decide
    refine ⟨_, accept_low t s d hs hd, hp, ?_⟩
    simp [acquired, frameState, ha]

/-- C19 after the frame 60, 20 x 39 fed from the initial state and not polled:
the buffer holds 7F FF FF FF FF, and the LOW pulse 60 leaves the flag true. -/
theorem accept_keeps_acquired_witness :
    (frameState init 60 (List.replicate 39 20))._packet = ⟨0x7F, 0xFF, 0xFF, 0xFF, 0xFF⟩ ∧
    ∃ s1, accept avr (frameState init 60 (List.replicate 39 20)) 60 = some s1 ∧
      s1._packet = ⟨0, 0, 0, 0, 0⟩ ∧ (acquired s1).1 = true :=
  ⟨by decide,
   (accept_keeps_acquired avr (frameState init 60 (List.replicate 39 20)) 60 (by decide)
     (by decide)).2 (by decide) (by decide)⟩

/-- LOW pulses encode 0 bits. -/
theorem bitsOf_low (ds : List Nat) :
    (∀ d ∈ ds, classify d = some 0) → bitsOf ds = List.replicate ds.length 0 := by
  induction ds with
  | nil => intro _; rfl
  | cons d ds ih =>
    intro h
    have h1 := ih fun x hx => h x (List.mem_cons_of_mem _ hx)
    have h2 := h d (List.mem_cons_self _ _)
    have e : bitsOf (d :: ds) = 0 :: bitsOf ds := by
      simp [bitsOf, List.filterMap_cons, h2]
    rw [e, h1]
    rfl

/-- C20: `_crc8` of any number of zero bytes is 0, so `valid()` is true on the
packet 00 00 00 00 00; and 40 LOW pulses fed in state 0 are acquired as that
packet and reported valid. -/
theorem zero_frame_valid (t : Target) (s : Decoder) :
    (∀ n, _crc8 (List.replicate n 0) = 0) ∧
    valid { s with _packet := ⟨0, 0, 0, 0, 0⟩ } = true ∧
    (∀ ds : List Nat, s.state = 0 → (∀ d ∈ ds, classify d = some 0) → ds.length = 40 →
      ∃ s1, run t s ds = some s1 ∧ s1._acquired = true ∧ s1._packet = ⟨0, 0, 0, 0, 0⟩ ∧
        valid s1 = true) := by
  have h00 : crc8_byte 0 0 = 0 := by decide
  have hz : ∀ n, _crc8 (List.replicate n 0) = 0 := by
    intro n
    unfold _crc8
    induction n with
    | zero => rfl
    | succ n ih => rw [List.replicate_succ, List.foldl_cons, h00]; exact ih
  have hv : ∀ s1 : Decoder, s1._packet = ⟨0, 0, 0, 0, 0⟩ → valid s1 = true := by
    intro s1 h
    unfold valid calculate_crc
    rw [h]
    exact beq_iff_eq.mpr (hz 4)
  refine ⟨hz, hv _ rfl, ?_⟩
  intro ds hs hds hlen
  cases ds with
  | nil => simp at hlen
  | cons d0 rest =>
    have hl : rest.length = 39 := by simpa using hlen
    have hrest : ∀ d ∈ rest, classify d = some 0 := fun x hx =>
      hds x (List.mem_cons_of_mem _ hx)
    have hrun := run_frame t s [] d0 rest (Or.inl hs) (by simp)
      (hds d0 (List.mem_cons_self _ _)) (fun x hx => by rw [hrest x hx]; simp) (by omega)
    have hp : (frameState s d0 rest)._packet = ⟨0, 0, 0, 0, 0⟩ := by
      simp only [frameState, bitsOf_low rest hrest, hl]
      decide
    exact ⟨_, hrun, by simp [frameState, hl], hp, hv _ hp⟩

/-- C20 at 40 pulses of length 60 fed from the initial state. -/
theorem zero_frame_valid_witness :
    ∃ s1, run avr init (List.replicate 40 60) = some s1 ∧ s1._acquired = true ∧
      s1._packet = ⟨0, 0, 0, 0, 0⟩ ∧ valid s1 = true :=
  (zero_frame_valid avr init).2.2 (List.replicate 40 60) rfl (by decide) (by decide)

/-! ## The statistics of a completed frame -/

/-- A running minimum is below its start and below every element, and is the
start or an element. -/
theorem foldl_min_spec (L : List Nat) :
    ∀ a : Nat, L.foldl min a ≤ a ∧ (∀ x ∈ L, L.foldl min a ≤ x) ∧
      (L.foldl min a = a ∨ L.foldl min a ∈ L) := by
  induction L with
  | nil => intro a; simp
  | cons y l ih =>
    intro a
    obtain ⟨h1, h2, h3⟩ := ih (min a y)
    simp only [List.foldl_cons, List.mem_cons]
    refine ⟨by omega, ?_, ?_⟩
    · intro x hx
      rcases hx with hx | hx
      · rw [hx]; omega
      · exact h2 x hx
    · rcases h3 with h | h
      · by_cases hay : a ≤ y
        · left; rw [h]; omega
        · right; left; rw [h]; omega
      · right; right; exact h

/-- A running maximum is above its start and above every element, and is the
start or an element. -/
theorem foldl_max_spec (L : List Nat) :
    ∀ a : Nat, a ≤ L.foldl max a ∧ (∀ x ∈ L, x ≤ L.foldl max a) ∧
      (L.foldl max a = a ∨ L.foldl max a ∈ L) := by
  induction L with
  | nil => intro a; simp
  | cons y l ih =>
    intro a
    obtain ⟨h1, h2, h3⟩ := ih (max a y)
    simp only [List.foldl_cons, List.mem_cons]
    refine ⟨by omega, ?_, ?_⟩
    · intro x hx
      rcases hx with hx | hx
      · rw [hx]; omega
      · exact h2 x hx
    · rcases h3 with h | h
      · by_cases hay : y ≤ a
        · left; rw [h]; omega
        · right; left; rw [h]; omega
      · right; right; exact h

/-- The intervals of class 1 lie in [13,27], those of class 0 in [52,68]. -/
theorem ofClass_range (c : Nat) (L : List Nat) (x : Nat) (hx : x ∈ ofClass c L) :
    (c = 1 ∧ 13 ≤ x ∧ x ≤ 27) ∨ (c = 0 ∧ 52 ≤ x ∧ x ≤ 68) :=
  classify_some x c (by simpa using (List.mem_filter.mp hx).2)

/-- The minimum and maximum of a class bound every interval of the class. -/
theorem minOf_le_maxOf (c : Nat) (L : List Nat) (x : Nat) (hx : x ∈ ofClass c L) :
    minOf c L ≤ x ∧ x ≤ maxOf c L :=
  ⟨(foldl_min_spec (ofClass c L) _).2.1 x hx, (foldl_max_spec (ofClass c L) _).2.1 x hx⟩

/-- When a class has an interval, its minimum and maximum are intervals of the
class. -/
theorem minOf_mem (c : Nat) (L : List Nat) (x : Nat) (hx : x ∈ ofClass c L) :
    minOf c L ∈ ofClass c L ∧ maxOf c L ∈ ofClass c L := by
  obtain ⟨h1, h2⟩ := minOf_le_maxOf c L x hx
  have h3 := ofClass_le c L x hx
  have h4 : 0 < x := by rcases ofClass_range c L x hx with h | h <;> omega
  constructor
  · rcases (foldl_min_spec (ofClass c L) (MAX_LENGTH_LOW + 1)).2.2 with h | h
    · unfold minOf at h1
      rw [h] at h1
      unfold MAX_LENGTH_LOW at h1
      omega
    · exact h
  · rcases (foldl_max_spec (ofClass c L) 0).2.2 with h | h
    · unfold maxOf at h2
      rw [h] at h2
      omega
    · exact h

/-- When a class has no interval, its minimum and maximum are the reset
values 69 and 0. -/
theorem minOf_absent (c : Nat) (L : List Nat) (h : ofClass c L = []) :
    minOf c L = 69 ∧ maxOf c L = 0 := by
  unfold minOf maxOf
  rw [h]
  exact ⟨rfl, rfl⟩

/-- A sum lies between the length times a lower and an upper bound of the
elements. -/
theorem sum_bounds (L : List Nat) (m M : Nat) :
    (∀ x ∈ L, m ≤ x ∧ x ≤ M) → L.length * m ≤ L.sum ∧ L.sum ≤ L.length * M := by
  induction L with
  | nil => intro _; simp
  | cons a l ih =>
    intro h
    obtain ⟨h1, h2⟩ := ih fun x hx => h x (List.mem_cons_of_mem _ hx)
    obtain ⟨h3, h4⟩ := h a (List.mem_cons_self _ _)
    simp only [List.length_cons, List.sum_cons, Nat.succ_mul]
    omega

/-- The value of `get_mean_interval()` when neither count is zero. -/
theorem get_mean_interval_eq (s : Decoder) (h0 : s.mean_interval_count.a0 ≠ 0)
    (h1 : s.mean_interval_count.a1 ≠ 0) :
    get_mean_interval s =
      some (⟨s.mean_interval.a0 / s.mean_interval_count.a0,
             s.mean_interval.a1 / s.mean_interval_count.a1⟩,
            { s with mean_interval :=
                ⟨s.mean_interval.a0 / s.mean_interval_count.a0,
                 s.mean_interval.a1 / s.mean_interval_count.a1⟩ }) := by
  unfold get_mean_interval
  simp [h0, h1]

/-- The mean of a class over the pulses after the sync pulse lies between the
minimum and the maximum of the class over the sync pulse and those pulses, and
is positive. -/
theorem mean_bounds (c d0 : Nat) (rest : List Nat) (hc : countOf c rest ≠ 0) :
    minOf c (d0 :: rest) ≤ sumOf c rest / countOf c rest ∧
    sumOf c rest / countOf c rest ≤ maxOf c (d0 :: rest) ∧
    0 < sumOf c rest / countOf c rest := by
  have hsub : ∀ x ∈ ofClass c rest, x ∈ ofClass c (d0 :: rest) := by
    intro x hx
    obtain ⟨h1, h2⟩ := List.mem_filter.mp hx
    exact List.mem_filter.mpr ⟨List.mem_cons_of_mem _ h1, h2⟩
  obtain ⟨h1, h2⟩ := sum_bounds (ofClass c rest) (minOf c (d0 :: rest)) (maxOf c (d0 :: rest))
    fun x hx => minOf_le_maxOf c (d0 :: rest) x (hsub x hx)
  have hpos : 0 < countOf c rest := Nat.pos_of_ne_zero hc
  obtain ⟨y, hy⟩ := List.exists_mem_of_length_pos hpos
  have hmin := (minOf_mem c (d0 :: rest) y (hsub y hy)).1
  have hmpos : 0 < minOf c (d0 :: rest) := by
    rcases ofClass_range c (d0 :: rest) _ hmin with h | h <;> omega
  have hlo : minOf c (d0 :: rest) ≤ sumOf c rest / countOf c rest := by
    rw [Nat.le_div_iff_mul_le hpos, Nat.mul_comm]
    exact h1
  exact ⟨hlo, Nat.div_le_of_le_mul h2, by omega⟩

/-- The minimum and maximum of both classes when a frame completes. -/
theorem frame_min_max (d0 : Nat) (rest : List Nat) (hd0 : classify d0 = some 0) :
    (52 ≤ minOf 0 (d0 :: rest) ∧ minOf 0 (d0 :: rest) ≤ maxOf 0 (d0 :: rest) ∧
      maxOf 0 (d0 :: rest) ≤ 68) ∧
    ((∃ d ∈ rest, classify d = some 1) →
      13 ≤ minOf 1 (d0 :: rest) ∧ minOf 1 (d0 :: rest) ≤ maxOf 1 (d0 :: rest) ∧
        maxOf 1 (d0 :: rest) ≤ 27) ∧
    ((∀ d ∈ rest, classify d ≠ some 1) →
      minOf 1 (d0 :: rest) = 69 ∧ maxOf 1 (d0 :: rest) = 0) := by
  have hin : ∀ c x, x ∈ ofClass c (d0 :: rest) →
      (c = 1 → 13 ≤ minOf c (d0 :: rest) ∧ minOf c (d0 :: rest) ≤ maxOf c (d0 :: rest) ∧
        maxOf c (d0 :: rest) ≤ 27) ∧
      (c = 0 → 52 ≤ minOf c (d0 :: rest) ∧ minOf c (d0 :: rest) ≤ maxOf c (d0 :: rest) ∧
        maxOf c (d0 :: rest) ≤ 68) := by
    intro c x hx
    obtain ⟨h1, h2⟩ := minOf_mem c (d0 :: rest) x hx
    obtain ⟨h3, h4⟩ := minOf_le_maxOf c (d0 :: rest) x hx
    have h5 := ofClass_range c (d0 :: rest) _ h1
    have h6 := ofClass_range c (d0 :: rest) _ h2
    constructor <;> intro hc <;> omega
  refine ⟨?_, ?_, ?_⟩
  · have h0 : d0 ∈ ofClass 0 (d0 :: rest) :=
      List.mem_filter.mpr ⟨List.mem_cons_self _ _, by simp [hd0]⟩
    exact (hin 0 d0 h0).2 rfl
  · rintro ⟨d, hd, hc⟩
    have h1 : d ∈ ofClass 1 (d0 :: rest) :=
      List.mem_filter.mpr ⟨List.mem_cons_of_mem _ hd, by simp [hc]⟩
    exact (hin 1 d h1).1 rfl
  · intro h
    apply minOf_absent
    unfold ofClass
    rw [List.filter_eq_nil_iff]
    intro x hx
    rcases List.mem_cons.mp hx with h1 | h1
    · rw [h1, hd0]; decide
    · simpa using h x h1

/-- C11 fails at the frame of 40 LOW pulses 60 fed from the initial state:
the frame completes with `min_interval[1]` = 69 and `max_interval[1]` = 0, the
values given at the sync match, outside [13,27]. -/
theorem min_max_range_counterexample :
    ∃ s, run avr init (List.replicate 40 60) = some s ∧ s._acquired = true ∧
      s.min_interval.a1 = 69 ∧ s.max_interval.a1 = 0 ∧
      ¬ (13 ≤ s.min_interval.a1 ∧ s.min_interval.a1 ≤ 27 ∧
        13 ≤ s.max_interval.a1 ∧ s.max_interval.a1 ≤ 27) :=
  ⟨frameState init 60 (List.replicate 39 60),
    run_frame avr init [] 60 (List.replicate 39 60) (Or.inl rfl) (by simp) (by decide)
      (by decide) (by decide),
    by decide, by decide, by decide, by decide⟩

/-- C11 as amended: when a frame completes, `min_interval[0]` and
`max_interval[0]` lie in [52,68]; `min_interval[1]` and `max_interval[1]` lie
in [13,27] when one of the 39 pulses after the sync pulse is HIGH, and are 69
and 0 when none is. -/
theorem min_max_range (t : Target) (s0 : Decoder) (pre : List Nat) (d0 : Nat)
    (rest : List Nat) (hr : Reachable t s0) (hs : s0.state = 0 ∨ s0.state = 1)
    (hpre : ∀ d ∈ pre, classify d = some 1) (hd0 : classify d0 = some 0)
    (hrest : ∀ d ∈ rest, classify d ≠ none) (hlen : rest.length = 39) :
    ∃ s, run t s0 (pre ++ d0 :: rest) = some s ∧ s._acquired = true ∧
      (52 ≤ s.min_interval.a0 ∧ s.min_interval.a0 ≤ s.max_interval.a0 ∧
        s.max_interval.a0 ≤ 68) ∧
      ((∃ d ∈ rest, classify d = some 1) →
        13 ≤ s.min_interval.a1 ∧ s.min_interval.a1 ≤ s.max_interval.a1 ∧
          s.max_interval.a1 ≤ 27) ∧
      ((∀ d ∈ rest, classify d ≠ some 1) →
        s.min_interval.a1 = 69 ∧ s.max_interval.a1 = 0) := by
  have hsr := reachable_searching t s0 hr hs
  refine ⟨_, run_frame t s0 pre d0 rest hsr hpre hd0 hrest (by omega), ?_, ?_⟩
  · simp [frameState, hlen]
  · exact frame_min_max d0 rest hd0

/-- C11 as amended, at the frame 60 then 20 and 60 in turn, fed from the
initial state after two HIGH pulses. -/
theorem min_max_range_witness :
    ∃ s, run avr init ([20, 20] ++ 60 :: (List.range 39).map fun i => if i % 2 = 0 then 20 else 60)
        = some s ∧ s._acquired = true ∧
      (52 ≤ s.min_interval.a0 ∧ s.min_interval.a0 ≤ s.max_interval.a0 ∧
        s.max_interval.a0 ≤ 68) :=
  (min_max_range avr init [20, 20] 60
    ((List.range 39).map fun i => if i % 2 = 0 then 20 else 60)
    (reachable_init avr) (Or.inl rfl) (by decide) (by decide) (by decide) (by decide)).imp
    fun _ h => ⟨h.1, h.2.1, h.2.2.1⟩

/-- C12: when a frame completes with both counts non-zero, one call of
`get_mean_interval()` returns for each class a value between the minimum and
the maximum of the class, which the call leaves as they are. -/
theorem mean_between_min_max (t : Target) (s0 : Decoder) (pre : List Nat) (d0 : Nat)
    (rest : List Nat) (hr : Reachable t s0) (hs : s0.state = 0 ∨ s0.state = 1)
    (hpre : ∀ d ∈ pre, classify d = some 1) (hd0 : classify d0 = some 0)
    (hrest : ∀ d ∈ rest, classify d ≠ none) (hlen : rest.length = 39) :
    ∃ s, run t s0 (pre ++ d0 :: rest) = some s ∧ s._acquired = true ∧
      (s.mean_interval_count.a0 ≠ 0 → s.mean_interval_count.a1 ≠ 0 →
        ∃ r s1, get_mean_interval s = some (r, s1) ∧
          s.min_interval.a0 ≤ r.a0 ∧ r.a0 ≤ s.max_interval.a0 ∧
          s.min_interval.a1 ≤ r.a1 ∧ r.a1 ≤ s.max_interval.a1 ∧
          s1.min_interval = s.min_interval ∧ s1.max_interval = s.max_interval) := by
  have hsr := reachable_searching t s0 hr hs
  refine ⟨_, run_frame t s0 pre d0 rest hsr hpre hd0 hrest (by omega), ?_, ?_⟩
  · simp [frameState, hlen]
  · intro h0 h1
    obtain ⟨a1, a2, -⟩ := mean_bounds 0 d0 rest h0
    obtain ⟨b1, b2, -⟩ := mean_bounds 1 d0 rest h1
    exact ⟨_, _, get_mean_interval_eq _ h0 h1, a1, a2, b1, b2, rfl, rfl⟩

/-- C12 at the frame 60 then 20 and 60 in turn, fed from the initial state:
the counts are 19 and 20 and the means lie between the minimum and maximum. -/
theorem mean_between_min_max_witness :
    ∃ s r s1, run avr init (60 :: (List.range 39).map fun i => if i % 2 = 0 then 20 else 60)
        = some s ∧ s.mean_interval_count = ⟨19, 20⟩ ∧
      get_mean_interval s = some (r, s1) ∧
      s.min_interval.a0 ≤ r.a0 ∧ r.a0 ≤ s.max_interval.a0 ∧
      s.min_interval.a1 ≤ r.a1 ∧ r.a1 ≤ s.max_interval.a1 := by
  obtain ⟨s, h1, -, h3⟩ := mean_between_min_max avr init [] 60
    ((List.range 39).map fun i => if i % 2 = 0 then 20 else 60)
    (reachable_init avr) (Or.inl rfl) (by simp) (by decide) (by decide) (by decide)
  have e : s = frameState init 60 ((List.range 39).map fun i => if i % 2 = 0 then 20 else 60) := by
    have h := run_frame avr init [] 60
      ((List.range 39).map fun i => if i % 2 = 0 then 20 else 60)
      (Or.inl rfl) (by simp) (by decide) (by decide) (by decide)
    rw [h] at h1
    exact (Option.some.inj h1).symm
  subst e
  obtain ⟨r, s1, h4, h5, h6, h7, h8, -⟩ := h3 (by decide) (by decide)
  exact ⟨_, r, s1, h1, by decide, h4, h5, h6, h7, h8⟩

/-- C13 fails at the frame 60, 20, 60 x 38 fed from the initial state: the
count of class 1 is 1, and the second of two calls of `get_mean_interval()` in
a row returns for class 1 the value 20 that the first returned. -/
theorem mean_twice_counterexample :
    ∃ s r1 s1 r2 s2, run avr init (60 :: 20 :: List.replicate 38 60) = some s ∧
      s._acquired = true ∧ s.mean_interval_count = ⟨38, 1⟩ ∧
      get_mean_interval s = some (r1, s1) ∧ get_mean_interval s1 = some (r2, s2) ∧
      r1 = ⟨60, 20⟩ ∧ r2 = ⟨1, 20⟩ ∧ r2.a1 = r1.a1 :=
  ⟨frameState init 60 (20 :: List.replicate 38 60), ⟨60, 20⟩,
    { frameState init 60 (20 :: List.replicate 38 60) with mean_interval := ⟨60, 20⟩ },
    ⟨1, 20⟩,
    { frameState init 60 (20 :: List.replicate 38 60) with mean_interval := ⟨1, 20⟩ },
    run_frame avr init [] 60 (20 :: List.replicate 38 60) (Or.inl rfl) (by simp) (by decide)
      (by decide) (by decide),
    by decide, by decide, by decide, by decide, rfl, rfl, rfl⟩

/-- A positive quotient changes under a further division exactly when the
divisor is at least 2. -/
theorem div_ne_self_iff (m c : Nat) (hm : 0 < m) (hc : c ≠ 0) : m / c ≠ m ↔ 2 ≤ c := by
  constructor
  · intro h
    by_contra h2
    have h1 : c = 1 := by omega
    rw [h1, Nat.div_one] at h
    exact h rfl
  · intro h
    exact Nat.ne_of_lt (Nat.div_lt_self hm (by omega))

/-- C13 as amended: when a frame completes with both counts non-zero, the
second of two calls of `get_mean_interval()` in a row returns for each class
the first value divided by the count again, which differs from the first value
exactly when the count of the class is at least 2. -/
theorem mean_twice (t : Target) (s0 : Decoder) (pre : List Nat) (d0 : Nat)
    (rest : List Nat) (hr : Reachable t s0) (hs : s0.state = 0 ∨ s0.state = 1)
    (hpre : ∀ d ∈ pre, classify d = some 1) (hd0 : classify d0 = some 0)
    (hrest : ∀ d ∈ rest, classify d ≠ none) (hlen : rest.length = 39) :
    ∃ s, run t s0 (pre ++ d0 :: rest) = some s ∧ s._acquired = true ∧
      (s.mean_interval_count.a0 ≠ 0 → s.mean_interval_count.a1 ≠ 0 →
        ∃ r1 s1 r2 s2, get_mean_interval s = some (r1, s1) ∧
          get_mean_interval s1 = some (r2, s2) ∧
          r2.a0 = r1.a0 / s.mean_interval_count.a0 ∧
          r2.a1 = r1.a1 / s.mean_interval_count.a1 ∧
          (r2.a0 ≠ r1.a0 ↔ 2 ≤ s.mean_interval_count.a0) ∧
          (r2.a1 ≠ r1.a1 ↔ 2 ≤ s.mean_interval_count.a1)) := by
  have hsr := reachable_searching t s0 hr hs
  refine ⟨_, run_frame t s0 pre d0 rest hsr hpre hd0 hrest (by omega), ?_, ?_⟩
  · simp [frameState, hlen]
  · intro h0 h1
    obtain ⟨-, -, a3⟩ := mean_bounds 0 d0 rest h0
    obtain ⟨-, -, b3⟩ := mean_bounds 1 d0 rest h1
    refine ⟨_, _, _, _, get_mean_interval_eq _ h0 h1, get_mean_interval_eq _ h0 h1, rfl, rfl,
      ?_, ?_⟩
    · exact div_ne_self_iff _ _ a3 h0
    · exact div_ne_self_iff _ _ b3 h1

/-- C13 as amended, at the frame 60 then 20 and 60 in turn, fed from the
initial state: the counts are 19 and 20, the first call returns 60 and 20, the
second 3 and 1. -/
theorem mean_twice_witness :
    ∃ s r1 s1 r2 s2,
      run avr init (60 :: (List.range 39).map fun i => if i % 2 = 0 then 20 else 60) = some s ∧
      s.mean_interval_count = ⟨19, 20⟩ ∧
      get_mean_interval s = some (r1, s1) ∧ get_mean_interval s1 = some (r2, s2) ∧
      r2.a0 ≠ r1.a0 ∧ r2.a1 ≠ r1.a1 := by
  obtain ⟨s, h1, -, h3⟩ := mean_twice avr init [] 60
    ((List.range 39).map fun i => if i % 2 = 0 then 20 else 60)
    (reachable_init avr) (Or.inl rfl) (by simp) (by decide) (by decide) (by decide)
  have e : s = frameState init 60 ((List.range 39).map fun i => if i % 2 = 0 then 20 else 60) := by
    have h := run_frame avr init [] 60
      ((List.range 39).map fun i => if i % 2 = 0 then 20 else 60)
      (Or.inl rfl) (by simp) (by decide) (by decide) (by decide)
    rw [h] at h1
    exact (Option.some.inj h1).symm
  subst e
  obtain ⟨r1, s1, r2, s2, h4, h5, -, -, h6, h7⟩ := h3 (by decide) (by decide)
  exact ⟨_, r1, s1, r2, s2, h1, by decide, h4, h5, h6.mpr (by decide), h7.mpr (by decide)⟩

end WH2
